import Mathlib

/-!
# TweetClassifer: lexicon (`WordCounts.cpp`) and training / inference (`training.cpp`)

A shallow embedding of the two source files.

* A `DSString` is the list of its characters.  The class itself (`DSString.h`)
  is not among the sources, so the handful of methods the code calls on it are
  modelled from the specification and marked as such.
* `vector<int>` is `List Int`; the `int` additions and subtractions on the
  counts wrap around at 32 bits (`wrapInt`): an overflow of `int` is undefined in
  C++, and the model takes the two's-complement result the usual targets
  compute.  The tallies `right` and `wrong` of `run_inference` and the sizes of
  vectors are unbounded.
* `vector<float>` is `List Flt`: a `float` is a `Flt`, and every conversion,
  addition and division rounds to binary32, to nearest with a tie to the even
  significand (`Flt.round`); `float` expressions are evaluated in single
  precision.  The constant `-.03` is the `double` nearest to `-3/100`.
* `map<DSString, int>` is an association list that is only ever read through
  `mapAt` (the `at` of the source, `none` standing for `out_of_range`).
* Code that mutates its arguments returns the new values.
-/

namespace TweetClassifier

/-! ## Machine numbers -/

/-- The `int` result of an arithmetic operation whose exact result is `x`:
wrapped around to 32 bits, two's complement. -/
def wrapInt (x : Int) : Int := (x + 2147483648) % 4294967296 - 2147483648

/-- A value of type `float` or `double`: not a number, an infinity, or a finite
value (the two zeros are not told apart). -/
inductive Flt where
  | nan
  | inf (negative : Bool)
  | fin (q : ℚ)
  deriving DecidableEq

/-- Round to the nearest integer, a tie to the even one. -/
def roundHalfEven (x : ℚ) : Int :=
  if x - ⌊x⌋ < 1 / 2 then ⌊x⌋
  else if 1 / 2 < x - ⌊x⌋ then ⌊x⌋ + 1
  else if ⌊x⌋ % 2 = 0 then ⌊x⌋ else ⌊x⌋ + 1

/-- The position of the leading bit of `n`, searched with `fuel` halvings. -/
def log2Fuel : Nat → Nat → Nat
  | 0, _ => 0
  | fuel + 1, n => if n < 2 then 0 else log2Fuel fuel (n / 2) + 1

/-- The position of the leading bit of `n > 0`: `2 ^ log2f n ≤ n < 2 ^ (log2f n + 1)`. -/
def log2f (n : Nat) : Nat := log2Fuel n n

/-- The binary exponent of `a > 0`: the `e` with `2 ^ e ≤ a < 2 ^ (e + 1)`. -/
def expo (a : ℚ) : Int :=
  if (2 : ℚ) ^ ((log2f a.num.natAbs : Int) - (log2f a.den : Int)) ≤ a then
    (log2f a.num.natAbs : Int) - (log2f a.den : Int)
  else (log2f a.num.natAbs : Int) - (log2f a.den : Int) - 1

/-- The magnitude `a > 0` rounded to `prec` significant bits, with the exponent
not below `emin`: round to nearest, a tie to the even significand. -/
def roundMag (prec : Nat) (emin : Int) (a : ℚ) : ℚ :=
  (roundHalfEven (a / 2 ^ (max (expo a) emin - ((prec : Int) - 1))) : ℚ) *
    2 ^ (max (expo a) emin - ((prec : Int) - 1))

/-- Rounding of the exact value `q` to the binary floating-point format with
`prec` significant bits and exponents from `emin` to `emax`. -/
def roundTo (prec : Nat) (emin emax : Int) (q : ℚ) : Flt :=
  if q = 0 then Flt.fin 0
  else if (2 : ℚ) ^ (emax + 1) ≤ roundMag prec emin |q| then Flt.inf (decide (q < 0))
  else Flt.fin (if q < 0 then -roundMag prec emin |q| else roundMag prec emin |q|)

/-- Rounding to `float` (binary32). -/
def Flt.round (q : ℚ) : Flt := roundTo 24 (-126) 127 q

/-- Conversion of an integer (`int` or `size_t`) to `float`. -/
def Flt.ofInt (x : Int) : Flt := Flt.round x

/-- Addition of two `float`s. -/
def Flt.add : Flt → Flt → Flt
  | .fin a, .fin b => Flt.round (a + b)
  | .fin _, .inf s => .inf s
  | .inf s, .fin _ => .inf s
  | .inf s, .inf t => if s = t then .inf s else .nan
  | _, _ => .nan

/-- Division of two `float`s.  A zero divisor is the positive zero: every divisor
in the source is converted from an integer. -/
def Flt.div : Flt → Flt → Flt
  | .fin a, .fin b =>
    if b = 0 then (if a = 0 then .nan else .inf (decide (a < 0))) else Flt.round (a / b)
  | .fin _, .inf _ => .fin 0
  | .inf s, .fin b => .inf (s != decide (b < 0))
  | _, _ => .nan

/-- The comparison `x < y` of two floating-point values. -/
def Flt.lt : Flt → Flt → Bool
  | .fin a, .fin b => decide (a < b)
  | .fin _, .inf s => !s
  | .inf s, .fin _ => s
  | .inf s, .inf t => s && !t
  | _, _ => false

/-- The comparison `x <= y` of two floating-point values. -/
def Flt.le : Flt → Flt → Bool
  | .fin a, .fin b => decide (a ≤ b)
  | .fin _, .inf s => !s
  | .inf s, .fin _ => s
  | .inf s, .inf t => s || !t
  | _, _ => false

/-- The `double` constant `-.03` of `run_inference`. -/
def biasThreshold : Flt := roundTo 53 (-1022) 1023 (-3 / 100)

/-! ## Strings -/

/-- Modelled from the spec: the string class `DSString` (its header is not among
the sources), as the list of its characters; a character whose code is 128 or
more stands for a non-ASCII byte. -/
abbrev DSString := List Char

/-- Modelled from the spec: `DSString::toLower` ("lower-cases input"); only the
letters `A`..`Z` change. -/
def toLower (w : DSString) : DSString := w.map Char.toLower

/-- Test whether `pat` starts `w`. -/
def startsWith : DSString → DSString → Bool
  | [], _ => true
  | _ :: _, [] => false
  | p :: pat, c :: w => p == c && startsWith pat w

/-- Modelled from the spec: `DSString::includes` ("contains ... as a
substring"). -/
def includes : DSString → DSString → Bool
  | [], pat => startsWith pat []
  | c :: w, pat => startsWith pat (c :: w) || includes w pat

/-- Modelled from the spec: `DSString::isASCII` (no "non-ASCII byte"). -/
def isASCII (w : DSString) : Bool := w.all fun c => decide (c.toNat < 128)

/-- One left-to-right pass of `filter`: `skip` counts the characters of a
matched occurrence that are still to be dropped. -/
def filterAux (pat : DSString) : Nat → DSString → DSString
  | _, [] => []
  | skip + 1, _ :: w => filterAux pat skip w
  | 0, c :: w =>
    if startsWith pat (c :: w) then filterAux pat (pat.length - 1) w
    else c :: filterAux pat 0 w

/-- Modelled from the spec: `DSString::filter` ("substring removal (every
occurrence of each filter string is deleted, not just the first)"), as one
left-to-right pass over the string. -/
def filter (w pat : DSString) : DSString := filterAux pat 0 w

/-- Pieces of `w` between spaces; `cur` is the piece being read, reversed. -/
def splitAux : DSString → DSString → List DSString
  | cur, [] => if cur = [] then [] else [cur.reverse]
  | cur, c :: w =>
    if c = ' ' then (if cur = [] then splitAux [] w else cur.reverse :: splitAux [] w)
    else splitAux (c :: cur) w

/-- Modelled from the spec: `DSString::split(' ')` ("splits on whitespace (space
character)"; "empty text yields a denominator of 1", so the empty text has no
words): the maximal runs of characters other than the space. -/
def split (w : DSString) : List DSString := splitAux [] w

/-! ## `WordCounts.cpp` -/

/-- `map::at`: the value stored under `word`, `none` for `out_of_range`. -/
def mapAt : List (DSString × Nat) → DSString → Option Nat
  | [], _ => none
  | (k, v) :: m, word => if k = word then some v else mapAt m word

/-- `map::insert`: adds the pair unless the key is already there. -/
def mapInsert (m : List (DSString × Nat)) (k : DSString) (v : Nat) : List (DSString × Nat) :=
  match mapAt m k with
  | some _ => m
  | none => m ++ [(k, v)]

/-- The fields of class `WordCounts`. -/
structure WordCounts where
  pos : List Int
  neg : List Int
  words : List DSString
  indices : List (DSString × Nat)
  scores : List Flt
  deriving DecidableEq

/-- `WordCounts::WordCounts()`. -/
def WordCounts.empty : WordCounts :=
  { pos := [], neg := [], words := [], indices := [], scores := [] }

/-- Conversion of a `bool` to `int`, as in `pos[index] += positive`. -/
def boolToInt (b : Bool) : Int := if b then 1 else 0

/-- `WordCounts::AddWord`. -/
def AddWord (wc : WordCounts) (word : DSString) (positive : Bool) : WordCounts :=
  match mapAt wc.indices word with
  | some index =>
    { wc with
      pos := wc.pos.set index (wrapInt (wc.pos.getD index 0 + boolToInt positive))
      neg := wc.neg.set index (wrapInt (wc.neg.getD index 0 + boolToInt (!positive))) }
  | none =>
    { words := wc.words ++ [word]
      pos := wc.pos ++ [boolToInt positive]
      neg := wc.neg ++ [boolToInt (!positive)]
      scores := wc.scores ++ [Flt.fin 0]
      indices := mapInsert wc.indices word ((wc.words ++ [word]).length - 1) }

/-- `WordCounts::Size`. -/
def Size (wc : WordCounts) : Nat := wc.words.length

/-- `WordCounts::GenScore`. -/
def GenScore (wc : WordCounts) (index : Nat) : Flt :=
  let ratio_score : Flt :=
    Flt.div (Flt.ofInt (wrapInt (wc.pos.getD index 0 - wc.neg.getD index 0)))
      (Flt.ofInt (wrapInt (wc.pos.getD index 0 + wc.neg.getD index 0)))
  if ratio_score = Flt.fin 1 ∨ ratio_score = Flt.fin (-1) then Flt.fin 0 else ratio_score

/-- `WordCounts::GenScores`: the loop `for i in 0 .. words.size()`. -/
def GenScores (wc : WordCounts) : WordCounts :=
  (List.range wc.words.length).foldl
    (fun w i => { w with scores := w.scores.set i (GenScore w i) }) wc

/-- `WordCounts::GetScore`. -/
def GetScore (wc : WordCounts) (word : DSString) : Flt :=
  match mapAt wc.indices word with
  | some index => wc.scores.getD index (Flt.fin 0)
  | none => Flt.fin 0

/-- The lexicon after a sequence of `AddWord` calls on a fresh `WordCounts`. -/
def build (calls : List (DSString × Bool)) : WordCounts :=
  calls.foldl (fun wc c => AddWord wc c.1 c.2) WordCounts.empty

/-- A call on a `WordCounts` that changes it. -/
inductive Op where
  | addWord (word : DSString) (positive : Bool)
  | genScores
  deriving DecidableEq

/-- Run one call. -/
def Op.apply (wc : WordCounts) : Op → WordCounts
  | .addWord word positive => AddWord wc word positive
  | .genScores => GenScores wc

/-- The lexicon after any sequence of `AddWord` and `GenScores` calls on a fresh
`WordCounts`. -/
def run (ops : List Op) : WordCounts := ops.foldl Op.apply WordCounts.empty

/-! ## `training.cpp` -/

/-- Modelled from the spec: the record container `Tweet` (its header is not among
the sources): "identifier, author, raw text, integer class label". -/
structure Tweet where
  id : DSString
  user : DSString
  text : DSString
  classification : Int
  deriving DecidableEq

/-- `filter_tweet`: the returned flag together with the word as the call leaves
it (the source cleans `*word` in place). -/
def filter_tweet (word : DSString) : Bool × DSString :=
  let word := toLower word
  if word = [] then (false, word)
  else if includes word "http://".toList then (false, word)
  else if includes word "https://".toList then (false, word)
  else if word = [] then (false, word)
  else if !isASCII word then (false, word)
  else
    let word := filter word [Char.ofNat 34]
    let word := filter word "&quot;".toList
    let word := filter word "&lt;".toList
    let word := filter word "&amp".toList
    let word := filter word ")".toList
    let word := filter word "(".toList
    let word := filter word [Char.ofNat 39]
    let word := filter word "=".toList
    let word := filter word "?".toList
    let word := filter word ".".toList
    let word := filter word "!".toList
    (decide (word.length ≥ 2), word)

/-- `check_biagram`: the pair `(*word, *next_word)` as the call leaves it. -/
def check_biagram (word next_word : DSString) : DSString × DSString :=
  let s1 : DSString × DSString :=
    if word = "not".toList then (word ++ " ".toList ++ next_word, []) else (word, next_word)
  let s2 : DSString × DSString :=
    if s1.1 = "very".toList then (s1.1 ++ " ".toList ++ s1.2, []) else s1
  s2

/-- The word loop of `gen_dict` from position `j` on: `word` is `parts[j]` as the
loop finds it and `rest` the words after it. -/
def gen_dict_words (positive : Bool) : DSString → List DSString → WordCounts → WordCounts
  | word, [], wc =>
    if (filter_tweet word).1 then AddWord wc (filter_tweet word).2 positive else wc
  | word, next :: rest, wc =>
    if (filter_tweet word).1 then
      gen_dict_words positive (check_biagram (filter_tweet word).2 next).2 rest
        (AddWord wc (check_biagram (filter_tweet word).2 next).1 positive)
    else gen_dict_words positive next rest wc

/-- Conversion of the `int` that `GetClassification()` returns to the `bool`
parameter of `AddWord`. -/
def intToBool (c : Int) : Bool := decide (c ≠ 0)

/-- One round of the outer loop of `gen_dict`. -/
def gen_dict_tweet (word_counts : WordCounts) (tweet : Tweet) : WordCounts :=
  let word_counts := AddWord word_counts tweet.user (intToBool tweet.classification)
  match split tweet.text with
  | [] => word_counts
  | word :: rest => gen_dict_words (intToBool tweet.classification) word rest word_counts

/-- `gen_dict`. -/
def gen_dict (data : List Tweet) : WordCounts :=
  data.foldl gen_dict_tweet WordCounts.empty

/-- `run_training`. -/
def run_training (data : List Tweet) : WordCounts := GenScores (gen_dict data)

/-- The word loop of `run_inference` from position `j` on, adding to `score`. -/
def run_inference_words (weights : WordCounts) : DSString → List DSString → Flt → Flt
  | word, [], score =>
    if (filter_tweet word).1 then Flt.add score (GetScore weights (filter_tweet word).2)
    else score
  | word, next :: rest, score =>
    if (filter_tweet word).1 then
      run_inference_words weights (check_biagram (filter_tweet word).2 next).2 rest
        (Flt.add score (GetScore weights (check_biagram (filter_tweet word).2 next).1))
    else run_inference_words weights next rest score

/-- The `score` of `run_inference` for one tweet, after the word loop. -/
def run_inference_score (weights : WordCounts) (tweet : Tweet) : Flt :=
  let score : Flt := Flt.add (Flt.fin 0) (GetScore weights tweet.user)
  match split tweet.text with
  | [] => score
  | word :: rest => run_inference_words weights word rest score

/-- The `prediction` of `run_inference` for one tweet. -/
def run_inference_prediction (weights : WordCounts) (tweet : Tweet) : Int :=
  let score := run_inference_score weights tweet
  let prediction : Int :=
    if Flt.lt biasThreshold (Flt.div score (Flt.ofInt ((split tweet.text).length + 1))) then 1
    else 0
  prediction * 4

/-- What `run_inference` prints and hands to `write_errors`. -/
structure Evaluation where
  errors : List Tweet
  right : Int
  wrong : Int
  accuracy : Flt
  deriving DecidableEq

/-- `run_inference`. -/
def run_inference (weights : WordCounts) (data : List Tweet) : Evaluation :=
  let st : List Tweet × Int × Int :=
    data.foldl
      (fun st tweet =>
        if tweet.classification ≠ run_inference_prediction weights tweet then
          (st.1 ++ [tweet], st.2.1, st.2.2 + 1)
        else (st.1, st.2.1 + 1, st.2.2))
      ([], 0, 0)
  { errors := st.1, right := st.2.1, wrong := st.2.2
    accuracy := Flt.div (Flt.ofInt st.2.1) (Flt.ofInt (st.2.1 + st.2.2)) }

/-! ## The words a loop hands on -/

/-- The outcome of each round of the word loop, from position `j` on: the token
handed to `AddWord` (in `gen_dict`) or `GetScore` (in `run_inference`), or `none`
when the round ends at `continue`. -/
def emitFrom : DSString → List DSString → List (Option DSString)
  | word, [] => [if (filter_tweet word).1 then some (filter_tweet word).2 else none]
  | word, next :: rest =>
    if (filter_tweet word).1 then
      some (check_biagram (filter_tweet word).2 next).1 ::
        emitFrom (check_biagram (filter_tweet word).2 next).2 rest
    else none :: emitFrom next rest

/-- The outcome of every round of the word loop over `parts`. -/
def emitted : List DSString → List (Option DSString)
  | [] => []
  | word :: rest => emitFrom word rest

/-- The tokens the word loop hands on, in order. -/
def tokens (parts : List DSString) : List DSString := (emitted parts).filterMap id

/-- The word each round finds in its slot, from position `j` on. -/
def slotsFrom : DSString → List DSString → List DSString
  | word, [] => [word]
  | word, next :: rest =>
    word ::
      (if (filter_tweet word).1 then slotsFrom (check_biagram (filter_tweet word).2 next).2 rest
       else slotsFrom next rest)

/-- The word each round of the word loop over `parts` finds in its slot: the
split word, or the empty word the round before left there. -/
def slots : List DSString → List DSString
  | [] => []
  | word :: rest => slotsFrom word rest

/-! ## The representation invariant -/

/-- The representation invariant of a `WordCounts`: the four vectors have one
entry per word, the index map and `words` are inverse to each other, and every
count is an `int`. -/
structure WF (wc : WordCounts) : Prop where
  pos_len : wc.pos.length = wc.words.length
  neg_len : wc.neg.length = wc.words.length
  scores_len : wc.scores.length = wc.words.length
  at_word : ∀ w i, mapAt wc.indices w = some i → wc.words[i]? = some w
  word_at : ∀ w i, wc.words[i]? = some w → mapAt wc.indices w = some i
  pos_int : ∀ x ∈ wc.pos, -2147483648 ≤ x ∧ x ≤ 2147483647
  neg_int : ∀ x ∈ wc.neg, -2147483648 ≤ x ∧ x ≤ 2147483647

/-- Every entry has been counted at least once and at most `k` times, and no
count is negative: the state of the counts while no `int` has overflowed. -/
def Counted (k : Int) (wc : WordCounts) : Prop :=
  ∀ i, i < wc.words.length →
    0 ≤ wc.pos.getD i 0 ∧ 0 ≤ wc.neg.getD i 0 ∧ 1 ≤ wc.pos.getD i 0 + wc.neg.getD i 0 ∧
      wc.pos.getD i 0 + wc.neg.getD i 0 ≤ k

/-! ## Example data -/

/-- The calls that observe "good" five times as positive and once as negative,
and "bad" once as positive and five times as negative. -/
def goodBadCalls : List (DSString × Bool) :=
  List.replicate 5 ("good".toList, true) ++ [("good".toList, false)] ++
    [("bad".toList, true)] ++ List.replicate 5 ("bad".toList, false)

/-! ## Reading a lexicon and a word -/

/-- The positive count stored for `word`, 0 when the word has no entry. -/
def posOf (wc : WordCounts) (word : DSString) : Int :=
  match mapAt wc.indices word with
  | some index => wc.pos.getD index 0
  | none => 0

/-- The negative count stored for `word`, 0 when the word has no entry. -/
def negOf (wc : WordCounts) (word : DSString) : Int :=
  match mapAt wc.indices word with
  | some index => wc.neg.getD index 0
  | none => 0

/-- The eleven strings `filter_tweet` removes, in the order of its calls. -/
def filterStrings : List DSString :=
  [[Char.ofNat 34], "&quot;".toList, "&lt;".toList, "&amp".toList, ")".toList, "(".toList,
    [Char.ofNat 39], "=".toList, "?".toList, ".".toList, "!".toList]

/-- A record labelled 2, neither the positive label 4 nor the label 0. -/
def neutralTweet : Tweet :=
  { id := "7".toList, user := "al".toList, text := "good".toList, classification := 2 }

/-- A record labelled 4 whose one word is "xx". -/
def positiveTweet : Tweet :=
  { id := "1".toList, user := "p".toList, text := "xx".toList, classification := 4 }

/-- A record labelled 0 whose text is "xx" followed by ten one-letter words,
which `filter_tweet` rejects. -/
def paddedTweet : Tweet :=
  { id := "2".toList, user := "n".toList, text := "xx a a a a a a a a a a".toList,
    classification := 0 }

/-- A data set on which training lowers the accuracy. -/
def adverseData : List Tweet := [positiveTweet, paddedTweet, paddedTweet]

/-- A record labelled 0 whose one word is "good". -/
def negativeTweet : Tweet :=
  { id := "4".toList, user := "n".toList, text := "good".toList, classification := 0 }

/-- A data set on which training raises the accuracy: "good" is counted once as
positive (by the record labelled 2) and twice as negative. -/
def helpfulData : List Tweet := [positiveTweet, neutralTweet, negativeTweet, negativeTweet]

/-- A record labelled 4 whose author and whose one word are both "aa": two
observations of one word. -/
def echoTweet : Tweet :=
  { id := "3".toList, user := "aa".toList, text := "aa".toList, classification := 4 }

/-- The number of `AddWord` calls `gen_dict` makes for a list of records: one
for each author and one for each token. -/
def observations (data : List Tweet) : Nat :=
  data.length + (data.map fun t => (tokens (split t.text)).length).sum

/-! ## Rounding -/

theorem two_zpow_pos (k : Int) : (0 : ℚ) < 2 ^ k := zpow_pos (by norm_num) k

theorem two_zpow_le {m n : Int} (h : m ≤ n) : (2 : ℚ) ^ m ≤ 2 ^ n :=
  zpow_le_zpow_right₀ (by norm_num) h

theorem two_zpow_succ (k : Int) : (2 : ℚ) ^ (k + 1) = 2 * 2 ^ k := by
  rw [zpow_add_one₀ (by norm_num : (2 : ℚ) ≠ 0), mul_comm]

theorem log2Fuel_spec (fuel n : Nat) (hn : 0 < n) (hf : n ≤ fuel) :
    2 ^ log2Fuel fuel n ≤ n ∧ n < 2 ^ (log2Fuel fuel n + 1) := by
  induction fuel generalizing n with
  | zero => omega
  | succ fuel ih =>
    unfold log2Fuel
    by_cases h2 : n < 2
    · rw [if_pos h2]
      have : n = 1 := by omega
      subst this
      norm_num
    · rw [if_neg h2]
      have hd : 0 < n / 2 := Nat.div_pos (by omega) (by norm_num)
      have hdf : n / 2 ≤ fuel := by omega
      obtain ⟨h1, h3⟩ := ih (n / 2) hd hdf
      have e1 : 2 ^ (log2Fuel fuel (n / 2) + 1) = 2 * 2 ^ log2Fuel fuel (n / 2) := by
        rw [pow_succ, mul_comm]
      have e2 : 2 ^ (log2Fuel fuel (n / 2) + 1 + 1) = 2 * 2 ^ (log2Fuel fuel (n / 2) + 1) := by
        rw [pow_succ, mul_comm]
      rw [e2]
      rw [e1] at h3 ⊢
      constructor <;> omega

theorem log2f_spec (n : Nat) (hn : 0 < n) : 2 ^ log2f n ≤ n ∧ n < 2 ^ (log2f n + 1) :=
  log2Fuel_spec n n hn (le_refl n)

theorem quot_bounds (N D : ℚ) (ln ld : Nat) (hD : 0 < D) (qn1 : 2 ^ ln ≤ N)
    (qn2 : N < 2 ^ (ln + 1)) (qd1 : 2 ^ ld ≤ D) (qd2 : D < 2 ^ (ld + 1)) :
    N / D < 2 * (2 ^ ln / 2 ^ ld) ∧ (2 ^ ln / 2 ^ ld) / 2 ≤ N / D := by
  have hpd : (0 : ℚ) < 2 ^ ld := pow_pos (by norm_num) _
  have hpn : (0 : ℚ) < 2 ^ ln := pow_pos (by norm_num) _
  constructor
  · rw [div_lt_iff₀ hD]
    have h1 : 2 * ((2 : ℚ) ^ ln / 2 ^ ld) * 2 ^ ld ≤ 2 * ((2 : ℚ) ^ ln / 2 ^ ld) * D :=
      mul_le_mul_of_nonneg_left qd1 (by positivity)
    have e : 2 * ((2 : ℚ) ^ ln / 2 ^ ld) * 2 ^ ld = 2 ^ (ln + 1) := by
      field_simp
      ring
    rw [e] at h1
    linarith
  · rw [le_div_iff₀ hD]
    have h1 : ((2 : ℚ) ^ ln / 2 ^ ld) / 2 * D ≤ ((2 : ℚ) ^ ln / 2 ^ ld) / 2 * 2 ^ (ld + 1) :=
      mul_le_mul_of_nonneg_left (le_of_lt qd2) (by positivity)
    have e : ((2 : ℚ) ^ ln / 2 ^ ld) / 2 * 2 ^ (ld + 1) = 2 ^ ln := by
      field_simp
      ring
    rw [e] at h1
    linarith

theorem expo_spec (a : ℚ) (ha : 0 < a) : (2 : ℚ) ^ expo a ≤ a ∧ a < 2 ^ (expo a + 1) := by
  have hnum : 0 < a.num := Rat.num_pos.2 ha
  have hden : 0 < a.den := a.den_pos
  have hN : 0 < a.num.natAbs := Int.natAbs_pos.2 (ne_of_gt hnum)
  obtain ⟨n1, n2⟩ := log2f_spec a.num.natAbs hN
  obtain ⟨d1, d2⟩ := log2f_spec a.den hden
  have hNq : (a.num.natAbs : ℚ) = a.num := by
    rw [← Int.cast_natCast, Int.natAbs_of_nonneg (le_of_lt hnum)]
  have ha' : (a.num.natAbs : ℚ) / (a.den : ℚ) = a := by
    rw [hNq]
    exact Rat.num_div_den a
  have hdq : (0 : ℚ) < (a.den : ℚ) := by exact_mod_cast hden
  have qn1 : (2 : ℚ) ^ (log2f a.num.natAbs) ≤ (a.num.natAbs : ℚ) := by exact_mod_cast n1
  have qn2 : (a.num.natAbs : ℚ) < 2 ^ (log2f a.num.natAbs + 1) := by exact_mod_cast n2
  have qd1 : (2 : ℚ) ^ (log2f a.den) ≤ (a.den : ℚ) := by exact_mod_cast d1
  have qd2 : (a.den : ℚ) < 2 ^ (log2f a.den + 1) := by exact_mod_cast d2
  have hk : (2 : ℚ) ^ ((log2f a.num.natAbs : Int) - (log2f a.den : Int)) =
      2 ^ (log2f a.num.natAbs) / 2 ^ (log2f a.den) := by
    rw [zpow_sub₀ (by norm_num : (2 : ℚ) ≠ 0), zpow_natCast, zpow_natCast]
  obtain ⟨up, low⟩ := quot_bounds _ _ _ _ hdq qn1 qn2 qd1 qd2
  rw [ha'] at up low
  unfold expo
  by_cases hc : (2 : ℚ) ^ ((log2f a.num.natAbs : Int) - (log2f a.den : Int)) ≤ a
  · rw [if_pos hc]
    refine ⟨hc, ?_⟩
    rw [two_zpow_succ, hk]
    exact up
  · rw [if_neg hc]
    have hc' := lt_of_not_le hc
    constructor
    · have h2 : (2 : ℚ) ^ ((log2f a.num.natAbs : Int) - (log2f a.den : Int) - 1) =
          (2 ^ (log2f a.num.natAbs) / 2 ^ (log2f a.den)) / 2 := by
        rw [← hk, zpow_sub₀ (by norm_num : (2 : ℚ) ≠ 0) _ 1, zpow_one]
      rw [h2]
      exact low
    · have : (log2f a.num.natAbs : Int) - (log2f a.den : Int) - 1 + 1 =
          (log2f a.num.natAbs : Int) - (log2f a.den : Int) := by ring
      rw [this]
      exact hc'

theorem expo_mono (a b : ℚ) (ha : 0 < a) (hab : a ≤ b) : expo a ≤ expo b := by
  obtain ⟨s1, _⟩ := expo_spec a ha
  obtain ⟨_, t2⟩ := expo_spec b (lt_of_lt_of_le ha hab)
  have l : (2 : ℚ) ^ expo a < 2 ^ (expo b + 1) := lt_of_le_of_lt s1 (lt_of_le_of_lt hab t2)
  rw [zpow_lt_zpow_iff_right₀ (by norm_num : (1 : ℚ) < 2)] at l
  omega

theorem roundHalfEven_err (x : ℚ) :
    ((roundHalfEven x : Int) : ℚ) - x ≤ 1 / 2 ∧ x - ((roundHalfEven x : Int) : ℚ) ≤ 1 / 2 := by
  have f1 := Int.floor_le x
  have f2 := Int.lt_floor_add_one x
  unfold roundHalfEven
  split
  · constructor <;> linarith
  · split
    · push_cast
      constructor <;> linarith
    · rename_i h1 h2
      have e : x - ⌊x⌋ = 1 / 2 := le_antisymm (not_lt.1 h2) (not_lt.1 h1)
      split
      · constructor <;> linarith
      · push_cast
        constructor <;> linarith

theorem roundHalfEven_int (n : Int) : roundHalfEven (n : ℚ) = n := by
  unfold roundHalfEven
  rw [Int.floor_intCast]
  norm_num

theorem roundHalfEven_mono (x y : ℚ) (h : x ≤ y) : roundHalfEven x ≤ roundHalfEven y := by
  by_contra hlt
  have hlt' : roundHalfEven y + 1 ≤ roundHalfEven x := by omega
  have hq : ((roundHalfEven y : Int) : ℚ) + 1 ≤ ((roundHalfEven x : Int) : ℚ) := by
    exact_mod_cast hlt'
  obtain ⟨x1, x2⟩ := roundHalfEven_err x
  obtain ⟨y1, y2⟩ := roundHalfEven_err y
  have hxy : x = y := by linarith
  subst hxy
  omega

theorem roundHalfEven_ge (x : ℚ) (k : Int) (h : (k : ℚ) ≤ x) : k ≤ roundHalfEven x := by
  have := roundHalfEven_mono _ _ h
  rwa [roundHalfEven_int] at this

theorem roundHalfEven_le (x : ℚ) (k : Int) (h : x ≤ (k : ℚ)) : roundHalfEven x ≤ k := by
  have := roundHalfEven_mono _ _ h
  rwa [roundHalfEven_int] at this

/-- The magnitude is rounded as a multiple of the unit in the last place. -/
theorem roundMag_eq (prec : Nat) (emin : Int) (a : ℚ) :
    roundMag prec emin a =
      (roundHalfEven (a / 2 ^ (max (expo a) emin - ((prec : Int) - 1))) : ℚ) *
        2 ^ (max (expo a) emin - ((prec : Int) - 1)) := rfl

theorem roundMag_nonneg (prec : Nat) (emin : Int) (a : ℚ) (ha : 0 < a) :
    0 ≤ roundMag prec emin a := by
  rw [roundMag_eq]
  have hu := two_zpow_pos (max (expo a) emin - ((prec : Int) - 1))
  have hx : ((0 : Int) : ℚ) ≤ a / 2 ^ (max (expo a) emin - ((prec : Int) - 1)) := by
    rw [Int.cast_zero]
    positivity
  have hm := roundHalfEven_ge _ 0 hx
  have hmq : (0 : ℚ) ≤ (roundHalfEven (a / 2 ^ (max (expo a) emin - ((prec : Int) - 1))) : ℚ) := by
    exact_mod_cast hm
  positivity

theorem two_zpow_split (e : Int) (prec : Nat) (hp : 1 ≤ prec) :
    (2 : ℚ) ^ e = ((2 ^ (prec - 1) : Int) : ℚ) * 2 ^ (e - ((prec : Int) - 1)) := by
  have h : ((2 ^ (prec - 1) : Int) : ℚ) = (2 : ℚ) ^ (((prec - 1 : Nat) : Int)) := by
    rw [zpow_natCast]
    push_cast
    rfl
  rw [h, ← zpow_add₀ (by norm_num : (2 : ℚ) ≠ 0)]
  congr 1
  omega

theorem roundMag_ge_normal (prec : Nat) (emin : Int) (a : ℚ) (hp : 1 ≤ prec) (ha : 0 < a)
    (hn : emin ≤ expo a) : (2 : ℚ) ^ expo a ≤ roundMag prec emin a := by
  rw [roundMag_eq, max_eq_left hn]
  have hu := two_zpow_pos (expo a - ((prec : Int) - 1))
  obtain ⟨s1, _⟩ := expo_spec a ha
  have hsplit := two_zpow_split (expo a) prec hp
  have hx : ((2 ^ (prec - 1) : Int) : ℚ) ≤ a / 2 ^ (expo a - ((prec : Int) - 1)) := by
    rw [le_div_iff₀ hu, ← hsplit]
    exact s1
  have hm := roundHalfEven_ge _ _ hx
  have hmq : ((2 ^ (prec - 1) : Int) : ℚ) ≤
      (roundHalfEven (a / 2 ^ (expo a - ((prec : Int) - 1))) : ℚ) := by
    exact_mod_cast hm
  rw [hsplit]
  exact mul_le_mul_of_nonneg_right hmq (le_of_lt hu)

theorem roundMag_le (prec : Nat) (emin : Int) (a : ℚ) (hp : 1 ≤ prec) (ha : 0 < a) :
    roundMag prec emin a ≤ 2 ^ (max (expo a) emin + 1) := by
  rw [roundMag_eq]
  have hu := two_zpow_pos (max (expo a) emin - ((prec : Int) - 1))
  obtain ⟨_, s2⟩ := expo_spec a ha
  have hsplit := two_zpow_split (max (expo a) emin + 1) (prec + 1) (by omega)
  have he : max (expo a) emin + 1 - (((prec + 1 : Nat) : Int) - 1) =
      max (expo a) emin - ((prec : Int) - 1) := by
    push_cast
    ring
  rw [he, Nat.add_sub_cancel] at hsplit
  have hle : (2 : ℚ) ^ (expo a + 1) ≤ 2 ^ (max (expo a) emin + 1) :=
    two_zpow_le (by have := le_max_left (expo a) emin; omega)
  have hx : a / 2 ^ (max (expo a) emin - ((prec : Int) - 1)) ≤ ((2 ^ prec : Int) : ℚ) := by
    rw [div_le_iff₀ hu, ← hsplit]
    exact le_of_lt (lt_of_lt_of_le s2 hle)
  have hm := roundHalfEven_le _ _ hx
  have hmq : (roundHalfEven (a / 2 ^ (max (expo a) emin - ((prec : Int) - 1))) : ℚ) ≤
      ((2 ^ prec : Int) : ℚ) := by
    exact_mod_cast hm
  rw [hsplit]
  exact mul_le_mul_of_nonneg_right hmq (le_of_lt hu)

theorem roundMag_mono (prec : Nat) (emin : Int) (a b : ℚ) (hp : 1 ≤ prec) (ha : 0 < a)
    (hab : a ≤ b) : roundMag prec emin a ≤ roundMag prec emin b := by
  have hb : 0 < b := lt_of_lt_of_le ha hab
  have hexp := expo_mono a b ha hab
  by_cases heq : max (expo a) emin = max (expo b) emin
  · rw [roundMag_eq, roundMag_eq, heq]
    have hu := two_zpow_pos (max (expo b) emin - ((prec : Int) - 1))
    have hx : a / 2 ^ (max (expo b) emin - ((prec : Int) - 1)) ≤
        b / 2 ^ (max (expo b) emin - ((prec : Int) - 1)) :=
      div_le_div_of_nonneg_right hab (le_of_lt hu)
    have hm := roundHalfEven_mono _ _ hx
    have hmq : (roundHalfEven (a / 2 ^ (max (expo b) emin - ((prec : Int) - 1))) : ℚ) ≤
        (roundHalfEven (b / 2 ^ (max (expo b) emin - ((prec : Int) - 1))) : ℚ) := by
      exact_mod_cast hm
    exact mul_le_mul_of_nonneg_right hmq (le_of_lt hu)
  · have hlt : max (expo a) emin < max (expo b) emin := by
      have : max (expo a) emin ≤ max (expo b) emin := max_le_max hexp (le_refl _)
      omega
    have hbn : emin < expo b := by
      by_contra hcon
      have h1 : max (expo b) emin = emin := max_eq_right (by omega)
      have h2 := le_max_right (expo a) emin
      omega
    have hbe : max (expo b) emin = expo b := max_eq_left (le_of_lt hbn)
    have h1 := roundMag_le prec emin a hp ha
    have h2 := roundMag_ge_normal prec emin b hp hb (le_of_lt hbn)
    have h3 : (2 : ℚ) ^ (max (expo a) emin + 1) ≤ 2 ^ expo b := two_zpow_le (by omega)
    linarith

theorem round_zero : Flt.round 0 = Flt.fin 0 := by
  simp [Flt.round, roundTo]

theorem round_of_pos (q : ℚ) (hq : 0 < q) :
    Flt.round q =
      if (2 : ℚ) ^ (128 : Int) ≤ roundMag 24 (-126) q then Flt.inf false
      else Flt.fin (roundMag 24 (-126) q) := by
  have h1 : ¬ q = 0 := ne_of_gt hq
  have h2 : ¬ q < 0 := not_lt.2 (le_of_lt hq)
  simp only [Flt.round, roundTo, h1, h2, if_false, abs_of_pos hq, decide_False]
  norm_num

theorem round_of_neg (q : ℚ) (hq : q < 0) :
    Flt.round q =
      if (2 : ℚ) ^ (128 : Int) ≤ roundMag 24 (-126) (-q) then Flt.inf true
      else Flt.fin (-roundMag 24 (-126) (-q)) := by
  have h1 : ¬ q = 0 := ne_of_lt hq
  simp only [Flt.round, roundTo, h1, hq, if_false, if_true, abs_of_neg hq, decide_True]
  norm_num

theorem roundMag_lt_overflow (q : ℚ) (hq : 0 < q) (hlt : q < 2 ^ (127 : Int)) :
    roundMag 24 (-126) q < 2 ^ (128 : Int) := by
  have h1 := roundMag_le 24 (-126) q (by norm_num) hq
  obtain ⟨s1, _⟩ := expo_spec q hq
  have he : expo q < 127 := by
    have := lt_of_le_of_lt s1 hlt
    rwa [zpow_lt_zpow_iff_right₀ (by norm_num : (1 : ℚ) < 2)] at this
  have h2 : (2 : ℚ) ^ (max (expo q) (-126) + 1) ≤ 2 ^ (127 : Int) :=
    two_zpow_le (by have := max_le (show expo q ≤ 126 by omega) (show (-126 : Int) ≤ 126 by norm_num); omega)
  have h3 : (2 : ℚ) ^ (127 : Int) < 2 ^ (128 : Int) := by norm_num
  linarith

theorem round_fin_of_pos (q : ℚ) (hq : 0 < q) (hlt : q < 2 ^ (127 : Int)) :
    Flt.round q = Flt.fin (roundMag 24 (-126) q) := by
  rw [round_of_pos q hq, if_neg (not_le.2 (roundMag_lt_overflow q hq hlt))]

theorem round_fin_of_neg (q : ℚ) (hq : q < 0) (hlt : -q < 2 ^ (127 : Int)) :
    Flt.round q = Flt.fin (-roundMag 24 (-126) (-q)) := by
  rw [round_of_neg q hq, if_neg (not_le.2 (roundMag_lt_overflow (-q) (by linarith) hlt))]

theorem expo_nonneg_of_one_le (q : ℚ) (hq : 1 ≤ q) : 0 ≤ expo q := by
  obtain ⟨_, s2⟩ := expo_spec q (by linarith)
  have h : (2 : ℚ) ^ (0 : Int) < 2 ^ (expo q + 1) := by
    rw [zpow_zero]
    linarith
  rw [zpow_lt_zpow_iff_right₀ (by norm_num : (1 : ℚ) < 2)] at h
  omega

/-- A positive value of at least 1, below the overflow threshold, rounds to a
finite `float` of at least 1 and at most twice the value. -/
theorem round_of_one_le (q : ℚ) (hq : 1 ≤ q) (hlt : q < 2 ^ (127 : Int)) :
    ∃ r, Flt.round q = Flt.fin r ∧ 1 ≤ r ∧ r ≤ 2 * q := by
  have hpos : 0 < q := by linarith
  refine ⟨roundMag 24 (-126) q, round_fin_of_pos q hpos hlt, ?_, ?_⟩
  · have he := expo_nonneg_of_one_le q hq
    have h1 := roundMag_ge_normal 24 (-126) q (by norm_num) hpos (by omega)
    have h2 : (1 : ℚ) ≤ 2 ^ expo q := one_le_zpow₀ (by norm_num) he
    linarith
  · have he := expo_nonneg_of_one_le q hq
    have h1 := roundMag_le 24 (-126) q (by norm_num) hpos
    rw [max_eq_left (by omega : (-126 : Int) ≤ expo q), two_zpow_succ] at h1
    obtain ⟨s1, _⟩ := expo_spec q hpos
    linarith

theorem ofInt_of_pos (x : Int) (hx : 1 ≤ x) (hlt : x ≤ 4294967296) :
    ∃ r, Flt.ofInt x = Flt.fin r ∧ 1 ≤ r ∧ r ≤ 2 * (x : ℚ) := by
  have h1 : (1 : ℚ) ≤ (x : ℚ) := by exact_mod_cast hx
  have h2 : (x : ℚ) < 2 ^ (127 : Int) := by
    have : (x : ℚ) ≤ 4294967296 := by exact_mod_cast hlt
    have : (4294967296 : ℚ) < 2 ^ (127 : Int) := by norm_num
    linarith
  exact round_of_one_le _ h1 h2

theorem ofInt_zero : Flt.ofInt 0 = Flt.fin 0 := by
  simp [Flt.ofInt, round_zero]

/-- Conversion commutes with negation. -/
theorem ofInt_neg (x : Int) (r : ℚ) (hx : 1 ≤ x) (hlt : x ≤ 4294967296)
    (h : Flt.ofInt x = Flt.fin r) : Flt.ofInt (-x) = Flt.fin (-r) := by
  have h1 : (0 : ℚ) < (x : ℚ) := by
    have : (1 : ℚ) ≤ (x : ℚ) := by exact_mod_cast hx
    linarith
  have h2 : (x : ℚ) < 2 ^ (127 : Int) := by
    have : (x : ℚ) ≤ 4294967296 := by exact_mod_cast hlt
    have : (4294967296 : ℚ) < 2 ^ (127 : Int) := by norm_num
    linarith
  unfold Flt.ofInt at h ⊢
  rw [round_fin_of_pos _ h1 h2] at h
  have hr : roundMag 24 (-126) (x : ℚ) = r := by
    injection h
  push_cast
  rw [round_fin_of_neg _ (by linarith) (by simpa using h2)]
  simp [hr]

/-- Rounding is monotone on values that are not negative. -/
theorem round_mono_nonneg (x y : ℚ) (hx : 0 ≤ x) (hxy : x ≤ y) :
    Flt.le (Flt.round x) (Flt.round y) = true := by
  rcases eq_or_lt_of_le hx with h0 | hpos
  · subst h0
    rcases eq_or_lt_of_le hxy with h0' | hypos
    · subst h0'
      simp [round_zero, Flt.le]
    · rw [round_zero, round_of_pos y hypos]
      split
      · rfl
      · simp [Flt.le, roundMag_nonneg 24 (-126) y hypos]
  · have hypos : 0 < y := lt_of_lt_of_le hpos hxy
    have hm := roundMag_mono 24 (-126) x y (by norm_num) hpos hxy
    rw [round_of_pos x hpos, round_of_pos y hypos]
    by_cases hoy : (2 : ℚ) ^ (128 : Int) ≤ roundMag 24 (-126) y
    · rw [if_pos hoy]
      split <;> rfl
    · rw [if_neg hoy]
      have hox : ¬ (2 : ℚ) ^ (128 : Int) ≤ roundMag 24 (-126) x := by
        intro h
        exact hoy (le_trans h hm)
      rw [if_neg hox]
      simp [Flt.le, hm]

/-- A value that is not negative rounds to a `float` that is not negative. -/
theorem round_nonneg (q : ℚ) (hq : 0 ≤ q) : Flt.le (Flt.fin 0) (Flt.round q) = true := by
  have := round_mono_nonneg 0 q (le_refl 0) hq
  rwa [round_zero] at this

/-! ## Signs, bounds and the threshold -/

/-- A value of at least 1 rounds to a finite `float` of at least 1, or overflows
to plus infinity. -/
theorem round_pos_cases (q : ℚ) (hq : 1 ≤ q) :
    (∃ r, Flt.round q = Flt.fin r ∧ 1 ≤ r) ∨ Flt.round q = Flt.inf false := by
  have hpos : 0 < q := by linarith
  rw [round_of_pos q hpos]
  split
  · exact Or.inr rfl
  · left
    refine ⟨_, rfl, ?_⟩
    have he := expo_nonneg_of_one_le q hq
    have h1 := roundMag_ge_normal 24 (-126) q (by norm_num) hpos (by omega)
    have h2 : (1 : ℚ) ≤ 2 ^ expo q := one_le_zpow₀ (by norm_num) he
    linarith

theorem ofInt_pos_cases (x : Int) (hx : 1 ≤ x) :
    (∃ r, Flt.ofInt x = Flt.fin r ∧ 1 ≤ r) ∨ Flt.ofInt x = Flt.inf false :=
  round_pos_cases (x : ℚ) (by exact_mod_cast hx)

/-- A value that is not negative rounds to a finite `float` that is not negative,
or overflows to plus infinity. -/
theorem round_nonneg_cases (q : ℚ) (hq : 0 ≤ q) :
    (∃ r, Flt.round q = Flt.fin r ∧ 0 ≤ r) ∨ Flt.round q = Flt.inf false := by
  rcases eq_or_lt_of_le hq with h0 | hpos
  · left
    exact ⟨0, by rw [← h0, round_zero], le_refl 0⟩
  · rw [round_of_pos q hpos]
    split
    · exact Or.inr rfl
    · exact Or.inl ⟨_, rfl, roundMag_nonneg 24 (-126) q hpos⟩

/-- Rounding is monotone: below a value that rounds to the finite `b`, a value
that is not negative rounds to a finite `float` between 0 and `b`. -/
theorem round_le_of_le (x y b : ℚ) (hx : 0 ≤ x) (hxy : x ≤ y)
    (hy : Flt.round y = Flt.fin b) : ∃ a, Flt.round x = Flt.fin a ∧ 0 ≤ a ∧ a ≤ b := by
  have hm := round_mono_nonneg x y hx hxy
  rw [hy] at hm
  rcases round_nonneg_cases x hx with ⟨a, ha, ha0⟩ | hinf
  · rw [ha] at hm
    exact ⟨a, ha, ha0, by simpa [Flt.le] using hm⟩
  · rw [hinf] at hm
    simp [Flt.le] at hm

/-- Rounding commutes with negation. -/
theorem round_neg (q r : ℚ) (hq : 0 < q) (h : Flt.round q = Flt.fin r) :
    Flt.round (-q) = Flt.fin (-r) := by
  rw [round_of_pos q hq] at h
  rw [round_of_neg (-q) (by linarith), neg_neg]
  split at h
  · cases h
  · rename_i hlt
    rw [if_neg hlt]
    injection h with h
    rw [h]

/-- A positive value rounds to a finite `float` that is not negative or to plus
infinity, never to a negative one; so the rounding of a negative value is not
positive. -/
theorem round_nonpos (q s : ℚ) (hq : q ≤ 0) (h : Flt.round q = Flt.fin s) : s ≤ 0 := by
  rcases eq_or_lt_of_le hq with h0 | hneg
  · rw [h0, round_zero] at h
    injection h with h
    rw [← h]
  · rw [round_of_neg q hneg] at h
    split at h
    · cases h
    · injection h with h
      rw [← h]
      have := roundMag_nonneg 24 (-126) (-q) (by linarith)
      linarith

theorem round_16777217 : Flt.round 16777217 = Flt.fin 16777216 := by decide!

theorem biasThreshold_eq :
    biasThreshold = Flt.fin (-1080863910568919 / 36028797018963968) := by decide!

theorem lt_biasThreshold_of_nonneg (s : ℚ) (hs : 0 ≤ s) :
    Flt.lt biasThreshold (Flt.fin s) = true := by
  rw [biasThreshold_eq]
  simp only [Flt.lt, decide_eq_true_eq]
  have : (-1080863910568919 / 36028797018963968 : ℚ) < 0 := by norm_num
  linarith

theorem lt_biasThreshold_inf : Flt.lt biasThreshold (Flt.inf false) = true := by
  rw [biasThreshold_eq]
  rfl

/-! ## Lemmas on lists and on the index map -/

theorem getD_set_self {α : Type} (l : List α) (i : Nat) (a d : α) (h : i < l.length) :
    (l.set i a).getD i d = a := by
  simp [List.getD_eq_getElem?_getD, List.getElem?_set, h]

theorem getD_set_ne {α : Type} (l : List α) (i j : Nat) (a d : α) (h : i ≠ j) :
    (l.set i a).getD j d = l.getD j d := by
  simp [List.getD_eq_getElem?_getD, List.getElem?_set, h]

theorem getD_append_lt {α : Type} (l : List α) (a d : α) (i : Nat) (h : i < l.length) :
    (l ++ [a]).getD i d = l.getD i d := by
  simp [List.getD_eq_getElem?_getD, List.getElem?_append_left h]

theorem getD_append_length {α : Type} (l : List α) (a d : α) :
    (l ++ [a]).getD l.length d = a := by
  simp [List.getD_eq_getElem?_getD]

theorem mapAt_append_of_some (m l : List (DSString × Nat)) (w : DSString) (i : Nat)
    (h : mapAt m w = some i) : mapAt (m ++ l) w = some i := by
  induction m with
  | nil => simp [mapAt] at h
  | cons kv m ih =>
    obtain ⟨k, v⟩ := kv
    simp only [List.cons_append, mapAt] at h ⊢
    split
    · simpa [*] using h
    · rename_i hk
      simp only [hk, if_false] at h
      exact ih h

theorem mapAt_append_of_none (m l : List (DSString × Nat)) (w : DSString)
    (h : mapAt m w = none) : mapAt (m ++ l) w = mapAt l w := by
  induction m with
  | nil => rfl
  | cons kv m ih =>
    obtain ⟨k, v⟩ := kv
    simp only [List.cons_append, mapAt] at h ⊢
    split
    · rename_i hk
      simp [hk] at h
    · rename_i hk
      simp only [hk, if_false] at h
      exact ih h

theorem mapAt_mapInsert_self (m : List (DSString × Nat)) (k : DSString) (v : Nat)
    (h : mapAt m k = none) : mapAt (mapInsert m k v) k = some v := by
  simp [mapInsert, h, mapAt_append_of_none, mapAt]

theorem mapAt_mapInsert_ne (m : List (DSString × Nat)) (k w : DSString) (v : Nat)
    (h : k ≠ w) : mapAt (mapInsert m k v) w = mapAt m w := by
  unfold mapInsert
  split
  · rfl
  · cases hw : mapAt m w with
    | none => simp [mapAt_append_of_none _ _ _ hw, mapAt, h]
    | some i => exact mapAt_append_of_some _ _ _ _ hw

/-! ## What `AddWord` and `GenScores` do to the fields -/

theorem AddWord_present (wc : WordCounts) (word : DSString) (positive : Bool) (index : Nat)
    (h : mapAt wc.indices word = some index) :
    AddWord wc word positive =
      { wc with
        pos := wc.pos.set index (wrapInt (wc.pos.getD index 0 + boolToInt positive))
        neg := wc.neg.set index (wrapInt (wc.neg.getD index 0 + boolToInt (!positive))) } := by
  simp [AddWord, h]

theorem AddWord_absent (wc : WordCounts) (word : DSString) (positive : Bool)
    (h : mapAt wc.indices word = none) :
    AddWord wc word positive =
      { words := wc.words ++ [word]
        pos := wc.pos ++ [boolToInt positive]
        neg := wc.neg ++ [boolToInt (!positive)]
        scores := wc.scores ++ [Flt.fin 0]
        indices := mapInsert wc.indices word wc.words.length } := by
  simp [AddWord, h]

theorem boolToInt_nonneg (b : Bool) : 0 ≤ boolToInt b := by
  cases b <;> simp [boolToInt]

theorem boolToInt_add_not (b : Bool) : boolToInt b + boolToInt (!b) = 1 := by
  cases b <;> simp [boolToInt]

theorem GenScore_congr (w wc : WordCounts) (i : Nat) (hp : w.pos = wc.pos) (hn : w.neg = wc.neg) :
    GenScore w i = GenScore wc i := by
  simp [GenScore, hp, hn]

/-- The first `n` rounds of the loop of `GenScores`. -/
theorem GenScores_rounds (wc : WordCounts) (n : Nat) :
    let w := (List.range n).foldl
      (fun w i => { w with scores := w.scores.set i (GenScore w i) }) wc
    w.pos = wc.pos ∧ w.neg = wc.neg ∧ w.words = wc.words ∧ w.indices = wc.indices ∧
      w.scores.length = wc.scores.length ∧
      ∀ i, w.scores[i]? =
        if i < n ∧ i < wc.scores.length then some (GenScore wc i) else wc.scores[i]? := by
  induction n with
  | zero => simp
  | succ n ih =>
    simp only [List.range_succ, List.foldl_append, List.foldl_cons, List.foldl_nil]
    obtain ⟨hp, hn, hw, hi, hl, hs⟩ := ih
    refine ⟨hp, hn, hw, hi, by simpa using hl, ?_⟩
    intro i
    rw [List.getElem?_set, GenScore_congr _ wc n hp hn, hl]
    by_cases hin : n = i
    · subst hin
      by_cases hlt : n < wc.scores.length
      · simp [hlt]
      · simp [hlt, List.getElem?_eq_none (Nat.le_of_not_lt hlt)]
    · rw [if_neg hin, hs i]
      have : (i < n + 1 ∧ i < wc.scores.length) ↔ (i < n ∧ i < wc.scores.length) := by
        constructor
        · rintro ⟨h1, h2⟩; exact ⟨by omega, h2⟩
        · rintro ⟨h1, h2⟩; exact ⟨by omega, h2⟩
      simp only [this]

theorem GenScores_pos (wc : WordCounts) : (GenScores wc).pos = wc.pos :=
  (GenScores_rounds wc wc.words.length).1

theorem GenScores_neg (wc : WordCounts) : (GenScores wc).neg = wc.neg :=
  (GenScores_rounds wc wc.words.length).2.1

theorem GenScores_words (wc : WordCounts) : (GenScores wc).words = wc.words :=
  (GenScores_rounds wc wc.words.length).2.2.1

theorem GenScores_indices (wc : WordCounts) : (GenScores wc).indices = wc.indices :=
  (GenScores_rounds wc wc.words.length).2.2.2.1

theorem GenScores_scores_length (wc : WordCounts) :
    (GenScores wc).scores.length = wc.scores.length :=
  (GenScores_rounds wc wc.words.length).2.2.2.2.1

theorem GenScores_scores (wc : WordCounts) (i : Nat) :
    (GenScores wc).scores[i]? =
      if i < wc.words.length ∧ i < wc.scores.length then some (GenScore wc i)
      else wc.scores[i]? :=
  (GenScores_rounds wc wc.words.length).2.2.2.2.2 i

/-! ## The invariant holds in every state the code reaches -/

theorem wrapInt_range (x : Int) : -2147483648 ≤ wrapInt x ∧ wrapInt x ≤ 2147483647 := by
  unfold wrapInt
  omega

theorem wrapInt_of_range (x : Int) (h1 : -2147483648 ≤ x) (h2 : x ≤ 2147483647) :
    wrapInt x = x := by
  unfold wrapInt
  omega

theorem boolToInt_range (b : Bool) : -2147483648 ≤ boolToInt b ∧ boolToInt b ≤ 2147483647 := by
  cases b <;> simp [boolToInt]

theorem getD_range (l : List Int) (i : Nat)
    (h : ∀ x ∈ l, -2147483648 ≤ x ∧ x ≤ 2147483647) :
    -2147483648 ≤ l.getD i 0 ∧ l.getD i 0 ≤ 2147483647 := by
  rw [List.getD_eq_getElem?_getD]
  cases hx : l[i]? with
  | none => simp
  | some x => exact h x (List.mem_iff_getElem?.2 ⟨i, hx⟩)

theorem WF_empty : WF WordCounts.empty where
  pos_len := rfl
  neg_len := rfl
  scores_len := rfl
  at_word := by intro w i h; simp [WordCounts.empty, mapAt] at h
  word_at := by intro w i h; simp [WordCounts.empty] at h
  pos_int := by intro x h; simp [WordCounts.empty] at h
  neg_int := by intro x h; simp [WordCounts.empty] at h

theorem WF.index_lt {wc : WordCounts} (h : WF wc) {w : DSString} {i : Nat}
    (hi : mapAt wc.indices w = some i) : i < wc.words.length := by
  have := h.at_word w i hi
  exact (List.getElem?_eq_some.1 this).1

theorem WF.pos_range {wc : WordCounts} (h : WF wc) (i : Nat) :
    -2147483648 ≤ wc.pos.getD i 0 ∧ wc.pos.getD i 0 ≤ 2147483647 :=
  getD_range wc.pos i h.pos_int

theorem WF.neg_range {wc : WordCounts} (h : WF wc) (i : Nat) :
    -2147483648 ≤ wc.neg.getD i 0 ∧ wc.neg.getD i 0 ≤ 2147483647 :=
  getD_range wc.neg i h.neg_int

theorem WF_AddWord (wc : WordCounts) (word : DSString) (positive : Bool) (h : WF wc) :
    WF (AddWord wc word positive) := by
  cases hidx : mapAt wc.indices word with
  | some index =>
    rw [AddWord_present wc word positive index hidx]
    refine ⟨by simpa using h.pos_len, by simpa using h.neg_len, h.scores_len, h.at_word,
      h.word_at, ?_, ?_⟩
    · intro x hx
      rcases List.mem_or_eq_of_mem_set hx with hm | he
      · exact h.pos_int x hm
      · rw [he]
        exact wrapInt_range _
    · intro x hx
      rcases List.mem_or_eq_of_mem_set hx with hm | he
      · exact h.neg_int x hm
      · rw [he]
        exact wrapInt_range _
  | none =>
    rw [AddWord_absent wc word positive hidx]
    refine ⟨by simp [h.pos_len], by simp [h.neg_len], by simp [h.scores_len], ?_, ?_, ?_, ?_⟩
    · intro w i hw
      simp only at hw ⊢
      by_cases hww : word = w
      · subst hww
        rw [mapAt_mapInsert_self _ _ _ hidx] at hw
        cases hw
        simp
      · rw [mapAt_mapInsert_ne _ _ _ _ hww] at hw
        have := h.at_word w i hw
        rw [List.getElem?_append_left (h.index_lt hw)]
        exact this
    · intro w i hw
      simp only at hw ⊢
      by_cases hi : i < wc.words.length
      · rw [List.getElem?_append_left hi] at hw
        have hm := h.word_at w i hw
        have hww : word ≠ w := by
          intro e; subst e; rw [hidx] at hm; cases hm
        rw [mapAt_mapInsert_ne _ _ _ _ hww]
        exact hm
      · have hlen := (List.getElem?_eq_some.1 hw).1
        simp only [List.length_append, List.length_singleton] at hlen
        have hi2 : i = wc.words.length := by omega
        subst hi2
        simp at hw
        subst hw
        exact mapAt_mapInsert_self _ _ _ hidx
    · intro x hx
      simp only [List.mem_append, List.mem_singleton] at hx
      rcases hx with hm | he
      · exact h.pos_int x hm
      · rw [he]
        exact boolToInt_range _
    · intro x hx
      simp only [List.mem_append, List.mem_singleton] at hx
      rcases hx with hm | he
      · exact h.neg_int x hm
      · rw [he]
        exact boolToInt_range _

theorem WF_GenScores (wc : WordCounts) (h : WF wc) : WF (GenScores wc) := by
  refine ⟨?_, ?_, ?_, ?_, ?_, ?_, ?_⟩
  · rw [GenScores_pos, GenScores_words]; exact h.pos_len
  · rw [GenScores_neg, GenScores_words]; exact h.neg_len
  · rw [GenScores_scores_length, GenScores_words]; exact h.scores_len
  · rw [GenScores_indices, GenScores_words]; exact h.at_word
  · rw [GenScores_indices, GenScores_words]; exact h.word_at
  · rw [GenScores_pos]; exact h.pos_int
  · rw [GenScores_neg]; exact h.neg_int

theorem WF_foldl_AddWord (calls : List (DSString × Bool)) (wc : WordCounts) (h : WF wc) :
    WF (calls.foldl (fun wc c => AddWord wc c.1 c.2) wc) := by
  induction calls generalizing wc with
  | nil => exact h
  | cons c calls ih => exact ih _ (WF_AddWord wc c.1 c.2 h)

theorem WF_build (calls : List (DSString × Bool)) : WF (build calls) :=
  WF_foldl_AddWord calls _ WF_empty

theorem WF_apply (wc : WordCounts) (op : Op) (h : WF wc) : WF (Op.apply wc op) := by
  cases op with
  | addWord word positive => exact WF_AddWord wc word positive h
  | genScores => exact WF_GenScores wc h

theorem WF_foldl_apply (ops : List Op) (wc : WordCounts) (h : WF wc) :
    WF (ops.foldl Op.apply wc) := by
  induction ops generalizing wc with
  | nil => exact h
  | cons op ops ih => exact ih _ (WF_apply wc op h)

theorem WF_run (ops : List Op) : WF (run ops) := WF_foldl_apply ops _ WF_empty

/-- The score `GenScores` stores for a word of a well-formed lexicon. -/
theorem GetScore_GenScores (wc : WordCounts) (h : WF wc) (word : DSString) (index : Nat)
    (hidx : mapAt wc.indices word = some index) :
    (GenScores wc).scores[index]? = some (GenScore wc index) ∧
      GetScore (GenScores wc) word = GenScore wc index := by
  have hlt := h.index_lt hidx
  have hs : (GenScores wc).scores[index]? = some (GenScore wc index) := by
    rw [GenScores_scores, if_pos ⟨hlt, by rw [h.scores_len]; exact hlt⟩]
  refine ⟨hs, ?_⟩
  simp [GetScore, GenScores_indices, hidx, List.getD_eq_getElem?_getD, hs]

theorem round_one : Flt.round 1 = Flt.fin 1 := by decide!

theorem round_neg_one : Flt.round (-1) = Flt.fin (-1) := by decide!

theorem div_fin_of_ne_zero (a b : ℚ) (hb : b ≠ 0) :
    Flt.div (Flt.fin a) (Flt.fin b) = Flt.round (a / b) := by
  simp [Flt.div, hb]

theorem GenScore_eq (wc : WordCounts) (index : Nat) :
    GenScore wc index =
      if Flt.div (Flt.ofInt (wrapInt (wc.pos.getD index 0 - wc.neg.getD index 0)))
            (Flt.ofInt (wrapInt (wc.pos.getD index 0 + wc.neg.getD index 0))) = Flt.fin 1 ∨
          Flt.div (Flt.ofInt (wrapInt (wc.pos.getD index 0 - wc.neg.getD index 0)))
            (Flt.ofInt (wrapInt (wc.pos.getD index 0 + wc.neg.getD index 0))) = Flt.fin (-1)
      then Flt.fin 0
      else Flt.div (Flt.ofInt (wrapInt (wc.pos.getD index 0 - wc.neg.getD index 0)))
            (Flt.ofInt (wrapInt (wc.pos.getD index 0 + wc.neg.getD index 0))) := rfl

/-- A word met under one label only gets the ratio 1 or -1, hence the score 0. -/
theorem GenScore_one_label (wc : WordCounts) (index : Nat)
    (hp : wc.pos.getD index 0 ≤ 2147483647) (hn : wc.neg.getD index 0 ≤ 2147483647)
    (hone : (0 < wc.pos.getD index 0 ∧ wc.neg.getD index 0 = 0) ∨
      (wc.pos.getD index 0 = 0 ∧ 0 < wc.neg.getD index 0)) :
    GenScore wc index = Flt.fin 0 := by
  rw [GenScore_eq]
  rcases hone with ⟨h1, h0⟩ | ⟨h0, h1⟩
  · rw [h0, sub_zero, add_zero, wrapInt_of_range _ (by omega) hp]
    obtain ⟨r, hr, hr1, _⟩ := ofInt_of_pos (wc.pos.getD index 0) (by omega) (by omega)
    have hne : r ≠ 0 := by linarith
    rw [hr, div_fin_of_ne_zero r r hne, div_self hne, round_one]
    simp
  · rw [h0, zero_sub, zero_add, wrapInt_of_range _ (by omega) (by omega),
      wrapInt_of_range _ (by omega) hn]
    obtain ⟨r, hr, hr1, _⟩ := ofInt_of_pos (wc.neg.getD index 0) (by omega) (by omega)
    have hne : r ≠ 0 := by linarith
    rw [ofInt_neg _ r (by omega) (by omega) hr, hr, div_fin_of_ne_zero (-r) r hne,
      neg_div, div_self hne, round_neg_one]
    simp

/-- In a lexicon whose counts have not overflowed (both at least 0, their sum
between 1 and 2147483647) every score computed by `GenScore` is a finite float in
[-1, 1], and it is not negative when the positive count is at least the negative
one. -/
theorem GenScore_range (wc : WordCounts) (index : Nat)
    (hp : 0 ≤ wc.pos.getD index 0) (hn : 0 ≤ wc.neg.getD index 0)
    (h1 : 1 ≤ wc.pos.getD index 0 + wc.neg.getD index 0)
    (hsum : wc.pos.getD index 0 + wc.neg.getD index 0 ≤ 2147483647) :
    ∃ q, GenScore wc index = Flt.fin q ∧ -1 ≤ q ∧ q ≤ 1 ∧
      (wc.neg.getD index 0 ≤ wc.pos.getD index 0 → 0 ≤ q) := by
  rw [GenScore_eq]
  generalize wc.pos.getD index 0 = p at hp hn h1 hsum ⊢
  generalize wc.neg.getD index 0 = n at hp hn h1 hsum ⊢
  rw [wrapInt_of_range _ (by omega) (by omega), wrapInt_of_range _ (by omega) (by omega)]
  obtain ⟨r, hr, hr1, _⟩ := ofInt_of_pos (p + n) h1 (by omega)
  have hne : r ≠ 0 := by linarith
  have hrpos : 0 < r := by linarith
  rw [hr]
  have hr2 : Flt.round ((p + n : Int) : ℚ) = Flt.fin r := hr
  rcases lt_trichotomy (p - n) 0 with hneg | hzero | hpos
  · have hx1 : (1 : ℚ) ≤ ((n - p : Int) : ℚ) := by exact_mod_cast (by omega : 1 ≤ n - p)
    have hx2 : ((n - p : Int) : ℚ) ≤ ((p + n : Int) : ℚ) := by
      exact_mod_cast (by omega : n - p ≤ p + n)
    obtain ⟨a, ha, ha0, har⟩ := round_le_of_le _ _ r (by linarith) hx2 hr2
    have hna : Flt.ofInt (p - n) = Flt.fin (-a) := by
      have e : ((p - n : Int) : ℚ) = -((n - p : Int) : ℚ) := by push_cast; ring
      show Flt.round ((p - n : Int) : ℚ) = Flt.fin (-a)
      rw [e]
      exact round_neg _ a (by linarith) ha
    rw [hna, div_fin_of_ne_zero _ _ hne, neg_div]
    have hc0 : 0 ≤ a / r := div_nonneg ha0 (le_of_lt hrpos)
    have hc1 : a / r ≤ 1 := by
      rw [div_le_one hrpos]
      exact har
    obtain ⟨s, hs, hs0, hs1⟩ := round_le_of_le (a / r) 1 1 hc0 hc1 round_one
    have hns : Flt.round (-(a / r)) = Flt.fin (-s) := by
      rcases eq_or_lt_of_le hc0 with hz | hcpos
      · rw [← hz, round_zero] at hs
        injection hs with hs
        rw [← hz, ← hs]
        simp [round_zero]
      · exact round_neg _ s hcpos hs
    rw [hns]
    split
    · exact ⟨0, rfl, by norm_num, by norm_num, fun _ => le_refl 0⟩
    · exact ⟨-s, rfl, by linarith, by linarith, fun hle => by omega⟩
  · rw [hzero, ofInt_zero, div_fin_of_ne_zero 0 r hne, zero_div, round_zero]
    refine ⟨0, ?_, by norm_num, by norm_num, fun _ => le_refl 0⟩
    split <;> rfl
  · have hx1 : (1 : ℚ) ≤ ((p - n : Int) : ℚ) := by exact_mod_cast (by omega : 1 ≤ p - n)
    have hx2 : ((p - n : Int) : ℚ) ≤ ((p + n : Int) : ℚ) := by
      exact_mod_cast (by omega : p - n ≤ p + n)
    obtain ⟨a, ha, ha0, har⟩ := round_le_of_le _ _ r (by linarith) hx2 hr2
    have hpa : Flt.ofInt (p - n) = Flt.fin a := ha
    rw [hpa, div_fin_of_ne_zero _ _ hne]
    have hc0 : 0 ≤ a / r := div_nonneg ha0 (le_of_lt hrpos)
    have hc1 : a / r ≤ 1 := by
      rw [div_le_one hrpos]
      exact har
    obtain ⟨s, hs, hs0, hs1⟩ := round_le_of_le (a / r) 1 1 hc0 hc1 round_one
    rw [hs]
    split
    · exact ⟨0, rfl, by norm_num, by norm_num, fun _ => le_refl 0⟩
    · exact ⟨s, rfl, by linarith, hs1, fun _ => hs0⟩

theorem AddWord_indices_ne (wc : WordCounts) (v w : DSString) (b : Bool) (h : v ≠ w) :
    mapAt (AddWord wc v b).indices w = mapAt wc.indices w := by
  cases hidx : mapAt wc.indices v with
  | some index => rw [AddWord_present wc v b index hidx]
  | none =>
    rw [AddWord_absent wc v b hidx]
    exact mapAt_mapInsert_ne _ _ _ _ h

theorem mapAt_foldl_apply_none (ops : List Op) (wc : WordCounts) (word : DSString)
    (h : ∀ b, Op.addWord word b ∉ ops) (hwc : mapAt wc.indices word = none) :
    mapAt (ops.foldl Op.apply wc).indices word = none := by
  induction ops generalizing wc with
  | nil => exact hwc
  | cons op ops ih =>
    simp only [List.foldl_cons]
    apply ih
    · intro b hb
      exact h b (List.mem_cons_of_mem _ hb)
    · cases op with
      | addWord v b =>
        have hv : v ≠ word := by
          intro e
          subst e
          exact h b (List.mem_cons_self _ _)
        simp only [Op.apply]
        rw [AddWord_indices_ne wc v word b hv]
        exact hwc
      | genScores =>
        simp only [Op.apply]
        rw [GenScores_indices]
        exact hwc

/-! ## Counts that have not overflowed -/

theorem wrapInt_add (x y : Int) : wrapInt (wrapInt x + y) = wrapInt (x + y) := by
  unfold wrapInt
  omega

theorem Counted_mono {k m : Int} {wc : WordCounts} (h : Counted k wc) (hk : k ≤ m) :
    Counted m wc :=
  fun i hi => ⟨(h i hi).1, (h i hi).2.1, (h i hi).2.2.1, le_trans (h i hi).2.2.2 hk⟩

theorem Counted_empty : Counted 0 WordCounts.empty := by
  intro i hi
  simp [WordCounts.empty] at hi

/-- One more observation keeps the counts in order, as long as no count has
reached the largest `int`. -/
theorem Counted_AddWord (wc : WordCounts) (hwf : WF wc) (k : Int) (hk0 : 0 ≤ k)
    (hk : k < 2147483647) (h : Counted k wc) (w : DSString) (b : Bool) :
    Counted (k + 1) (AddWord wc w b) := by
  cases hidx : mapAt wc.indices w with
  | some idx =>
    have hlt := hwf.index_lt hidx
    rw [AddWord_present wc w b idx hidx]
    intro i hi
    simp only at hi ⊢
    by_cases hii : idx = i
    · subst hii
      obtain ⟨h1, h2, h3, h4⟩ := h idx hi
      rw [getD_set_self _ _ _ _ (by rw [hwf.pos_len]; exact hlt),
        getD_set_self _ _ _ _ (by rw [hwf.neg_len]; exact hlt)]
      have hb := boolToInt_add_not b
      have hb1 := boolToInt_nonneg b
      have hb2 := boolToInt_nonneg (!b)
      rw [wrapInt_of_range _ (by omega) (by omega), wrapInt_of_range _ (by omega) (by omega)]
      omega
    · obtain ⟨h1, h2, h3, h4⟩ := h i hi
      rw [getD_set_ne _ _ _ _ _ hii, getD_set_ne _ _ _ _ _ hii]
      omega
  | none =>
    rw [AddWord_absent wc w b hidx]
    intro i hi
    simp only [List.length_append, List.length_singleton] at hi
    simp only
    by_cases hil : i < wc.words.length
    · obtain ⟨h1, h2, h3, h4⟩ := h i hil
      rw [getD_append_lt _ _ _ _ (by rw [hwf.pos_len]; exact hil),
        getD_append_lt _ _ _ _ (by rw [hwf.neg_len]; exact hil)]
      omega
    · have hie : i = wc.words.length := by omega
      have e1 : (wc.pos ++ [boolToInt b]).getD i 0 = boolToInt b := by
        rw [hie, ← hwf.pos_len]
        exact getD_append_length _ _ _
      have e2 : (wc.neg ++ [boolToInt (!b)]).getD i 0 = boolToInt (!b) := by
        rw [hie, ← hwf.neg_len]
        exact getD_append_length _ _ _
      rw [e1, e2]
      have hb := boolToInt_add_not b
      have hb1 := boolToInt_nonneg b
      have hb2 := boolToInt_nonneg (!b)
      omega

theorem Counted_foldl_AddWord (calls : List (DSString × Bool)) (wc : WordCounts) (hwf : WF wc)
    (k : Int) (hk0 : 0 ≤ k) (hk : k + (calls.length : Int) ≤ 2147483647) (h : Counted k wc) :
    Counted (k + (calls.length : Int)) (calls.foldl (fun wc c => AddWord wc c.1 c.2) wc) := by
  induction calls generalizing wc k with
  | nil => simpa using h
  | cons c calls ih =>
    simp only [List.length_cons, Nat.cast_add, Nat.cast_one] at hk ⊢
    simp only [List.foldl_cons]
    have := ih (AddWord wc c.1 c.2) (WF_AddWord wc c.1 c.2 hwf) (k + 1) (by omega) (by omega)
      (Counted_AddWord wc hwf k hk0 (by omega) h c.1 c.2)
    have e : k + ((calls.length : Int) + 1) = k + 1 + (calls.length : Int) := by ring
    rw [e]
    exact this

/-- While at most 2147483647 observations have been made, no count has
overflowed. -/
theorem Counted_build (calls : List (DSString × Bool)) (hlen : calls.length ≤ 2147483647) :
    Counted (calls.length : Int) (build calls) := by
  have := Counted_foldl_AddWord calls WordCounts.empty WF_empty 0 (le_refl 0)
    (by omega) Counted_empty
  rw [zero_add] at this
  exact this

/-! ## One word observed over and over -/

theorem AddWord_single (w : DSString) (p n : Int) (s : Flt) (b : Bool) :
    AddWord { pos := [p], neg := [n], words := [w], indices := [(w, 0)], scores := [s] } w b =
      { pos := [wrapInt (p + boolToInt b)], neg := [wrapInt (n + boolToInt (!b))],
        words := [w], indices := [(w, 0)], scores := [s] } := by
  rw [AddWord_present _ w b 0 (by simp [mapAt])]
  simp

theorem build_append_singleton (calls : List (DSString × Bool)) (c : DSString × Bool) :
    build (calls ++ [c]) = AddWord (build calls) c.1 c.2 := by
  simp [build, List.foldl_append]

/-- The lexicon after `n + 1` positive observations of one word: one entry,
whose positive count is `n + 1` wrapped around to an `int`. -/
theorem build_replicate (w : DSString) (n : Nat) :
    build (List.replicate (n + 1) (w, true)) =
      { pos := [wrapInt ((n : Int) + 1)], neg := [0], words := [w], indices := [(w, 0)],
        scores := [Flt.fin 0] } := by
  induction n with
  | zero =>
    simp [build, AddWord, mapAt, mapInsert, WordCounts.empty, boolToInt, wrapInt]
  | succ n ih =>
    rw [List.replicate_succ', build_append_singleton, ih, AddWord_single, wrapInt_add]
    simp only [boolToInt, Bool.not_true, if_true, Bool.false_eq_true, if_false, add_zero]
    have e0 : wrapInt 0 = 0 := by decide
    rw [e0]
    push_cast
    rfl

theorem run_addWord_eq_build (calls : List (DSString × Bool)) :
    run (calls.map fun c => Op.addWord c.1 c.2) = build calls := by
  simp [run, build, List.foldl_map, Op.apply]

/-! ## Scores of the lexicon -/

/-- C1: in every lexicon built by `AddWord` calls, a word observed under one
label only (positive count above 0 and negative count 0, or the reverse) has the
stored score 0 after `GenScores`, and `GetScore` returns 0 for it: neither 1
nor -1. -/
theorem C1_one_label_score_zero (calls : List (DSString × Bool)) (word : DSString)
    (index : Nat) (hidx : mapAt (build calls).indices word = some index)
    (hone : (0 < (build calls).pos.getD index 0 ∧ (build calls).neg.getD index 0 = 0) ∨
      ((build calls).pos.getD index 0 = 0 ∧ 0 < (build calls).neg.getD index 0)) :
    (GenScores (build calls)).scores[index]? = some (Flt.fin 0) ∧
      GetScore (GenScores (build calls)) word = Flt.fin 0 ∧
      GetScore (GenScores (build calls)) word ≠ Flt.fin 1 ∧
      GetScore (GenScores (build calls)) word ≠ Flt.fin (-1) := by
  have hwf := WF_build calls
  have h := GetScore_GenScores (build calls) hwf word index hidx
  rw [GenScore_one_label _ index (hwf.pos_range index).2 (hwf.neg_range index).2 hone] at h
  refine ⟨h.1, h.2, ?_, ?_⟩ <;> rw [h.2] <;> intro e <;> injection e with e <;>
    norm_num at e

/-- Witness of C1: "good" observed twice as positive and never as negative. -/
theorem C1_one_label_score_zero_witness :
    (GenScores (build [("good".toList, true), ("good".toList, true)])).scores[0]? =
        some (Flt.fin 0) ∧
      GetScore (GenScores (build [("good".toList, true), ("good".toList, true)]))
        "good".toList = Flt.fin 0 :=
  have h := C1_one_label_score_zero [("good".toList, true), ("good".toList, true)]
    "good".toList 0 (by decide) (Or.inl (by decide))
  ⟨h.1, h.2.1⟩

/-- C3: in every state of the lexicon, reached by any sequence of `AddWord` and
`GenScores` calls, a word never passed to `AddWord` is absent from the index map
(the lookup ends in the `catch` branch) and `GetScore` returns 0 for it. -/
theorem C3_unknown_word_scores_zero (ops : List Op) (word : DSString)
    (h : ∀ b, Op.addWord word b ∉ ops) :
    mapAt (run ops).indices word = none ∧ GetScore (run ops) word = Flt.fin 0 := by
  have hn : mapAt (run ops).indices word = none :=
    mapAt_foldl_apply_none ops WordCounts.empty word h rfl
  exact ⟨hn, by simp [GetScore, hn]⟩

/-- Witness of C3: "bad" is unknown to a lexicon trained on "good" alone. -/
theorem C3_unknown_word_scores_zero_witness :
    GetScore (run [Op.addWord "good".toList true, Op.genScores]) "bad".toList = Flt.fin 0 :=
  (C3_unknown_word_scores_zero [Op.addWord "good".toList true, Op.genScores] "bad".toList
    (by decide)).2

theorem getElem?_eq_some_getD {α : Type} (l : List α) (i : Nat) (d : α) (h : i < l.length) :
    l[i]? = some (l.getD i d) := by
  simp [List.getD_eq_getElem?_getD, List.getElem?_eq_getElem h]

theorem wrapInt_succ (p : Int) (h1 : -2147483648 ≤ p) (h2 : p ≤ 2147483647) :
    wrapInt (p + 1) = if p = 2147483647 then -2147483648 else p + 1 := by
  unfold wrapInt
  split <;> omega

/-- C4, counterexample: after 2147483647 positive observations of "a" its
positive count is 2147483647, and one more `AddWord` does not increase it by 1:
the `int` overflows, and wraps around to -2147483648. -/
theorem C4_increment_overflows :
    (run (List.replicate 2147483647 (Op.addWord "a".toList true))).pos[0]? =
        some 2147483647 ∧
      (AddWord (run (List.replicate 2147483647 (Op.addWord "a".toList true)))
        "a".toList true).pos[0]? = some (-2147483648) := by
  have e : run (List.replicate 2147483647 (Op.addWord "a".toList true)) =
      { pos := [2147483647], neg := [0], words := ["a".toList],
        indices := [("a".toList, 0)], scores := [Flt.fin 0] } := by
    have e1 := build_replicate "a".toList 2147483646
    have e2 : List.replicate 2147483647 (Op.addWord "a".toList true) =
        (List.replicate (2147483646 + 1) ("a".toList, true)).map
          fun c => Op.addWord c.1 c.2 := by
      rw [List.map_replicate]
    rw [e2, run_addWord_eq_build, e1]
    decide
  rw [e, AddWord_single]
  decide

/-- C4, amended: in every state of the lexicon, `AddWord w b` on a word that is
present adds exactly 1 to its positive count when `b` is true and to its
negative count otherwise, unless that count is 2147483647, the largest `int`, in
which case it becomes -2147483648; it leaves the other count, the words, the
index map and the scores as they are. On an absent word it appends `w` after all
words, with counts (1,0) when `b` is true and (0,1) otherwise and score 0. In
both cases every other word keeps its position, counts and score. -/
theorem C4_AddWord_effect (ops : List Op) (w : DSString) (b : Bool) :
    (∀ i, mapAt (run ops).indices w = some i →
      (AddWord (run ops) w b).words = (run ops).words ∧
      (AddWord (run ops) w b).indices = (run ops).indices ∧
      (AddWord (run ops) w b).scores = (run ops).scores ∧
      ∃ p n, (run ops).pos[i]? = some p ∧ (run ops).neg[i]? = some n ∧
        (AddWord (run ops) w b).pos[i]? =
          some (if b then (if p = 2147483647 then -2147483648 else p + 1) else p) ∧
        (AddWord (run ops) w b).neg[i]? =
          some (if b then n else (if n = 2147483647 then -2147483648 else n + 1))) ∧
    (mapAt (run ops).indices w = none →
      (AddWord (run ops) w b).words = (run ops).words ++ [w] ∧
      mapAt (AddWord (run ops) w b).indices w = some (run ops).words.length ∧
      (AddWord (run ops) w b).pos[(run ops).words.length]? = some (if b then 1 else 0) ∧
      (AddWord (run ops) w b).neg[(run ops).words.length]? = some (if b then 0 else 1) ∧
      (AddWord (run ops) w b).scores[(run ops).words.length]? = some (Flt.fin 0)) ∧
    (∀ v j, v ≠ w → (run ops).words[j]? = some v →
      (AddWord (run ops) w b).words[j]? = some v ∧
      mapAt (AddWord (run ops) w b).indices v = some j ∧
      (AddWord (run ops) w b).pos[j]? = (run ops).pos[j]? ∧
      (AddWord (run ops) w b).neg[j]? = (run ops).neg[j]? ∧
      (AddWord (run ops) w b).scores[j]? = (run ops).scores[j]?) := by
  have hwf := WF_run ops
  generalize run ops = wc at hwf ⊢
  refine ⟨?_, ?_, ?_⟩
  · intro i hi
    have hlt := hwf.index_lt hi
    have hpr := hwf.pos_range i
    have hnr := hwf.neg_range i
    rw [AddWord_present wc w b i hi]
    refine ⟨rfl, rfl, rfl, wc.pos.getD i 0, wc.neg.getD i 0,
      getElem?_eq_some_getD _ _ _ (by rw [hwf.pos_len]; exact hlt),
      getElem?_eq_some_getD _ _ _ (by rw [hwf.neg_len]; exact hlt), ?_, ?_⟩
    · simp only
      rw [List.getElem?_set, if_pos rfl, if_pos (by rw [hwf.pos_len]; exact hlt)]
      cases b
      · rw [show boolToInt false = 0 from rfl, add_zero, wrapInt_of_range _ hpr.1 hpr.2]
        simp
      · rw [show boolToInt true = 1 from rfl, wrapInt_succ _ hpr.1 hpr.2]
        simp
    · simp only
      rw [List.getElem?_set, if_pos rfl, if_pos (by rw [hwf.neg_len]; exact hlt)]
      cases b
      · rw [show boolToInt (!false) = 1 from rfl, wrapInt_succ _ hnr.1 hnr.2]
        simp
      · rw [show boolToInt (!true) = 0 from rfl, add_zero, wrapInt_of_range _ hnr.1 hnr.2]
        simp
  · intro hn
    rw [AddWord_absent wc w b hn]
    refine ⟨rfl, mapAt_mapInsert_self _ _ _ hn, ?_, ?_, ?_⟩
    · simp only
      rw [← hwf.pos_len]
      cases b <;> simp [boolToInt]
    · simp only
      rw [← hwf.neg_len]
      cases b <;> simp [boolToInt]
    · simp only
      rw [← hwf.scores_len]
      simp
  · intro v j hv hj
    have hjlt := (List.getElem?_eq_some.1 hj).1
    have hm := hwf.word_at v j hj
    cases hidx : mapAt wc.indices w with
    | some i =>
      have hij : i ≠ j := by
        intro e
        subst e
        have := hwf.at_word w i hidx
        rw [hj] at this
        exact hv (Option.some.inj this)
      rw [AddWord_present wc w b i hidx]
      refine ⟨hj, hm, ?_, ?_, rfl⟩
      · simp only
        rw [List.getElem?_set_ne hij]
      · simp only
        rw [List.getElem?_set_ne hij]
    | none =>
      rw [AddWord_absent wc w b hidx]
      refine ⟨?_, ?_, ?_, ?_, ?_⟩
      · simp only
        rw [List.getElem?_append_left hjlt]
        exact hj
      · simp only
        rw [mapAt_mapInsert_ne _ _ _ _ (Ne.symm hv)]
        exact hm
      · simp only
        rw [List.getElem?_append_left (by rw [hwf.pos_len]; exact hjlt)]
      · simp only
        rw [List.getElem?_append_left (by rw [hwf.neg_len]; exact hjlt)]
      · simp only
        rw [List.getElem?_append_left (by rw [hwf.scores_len]; exact hjlt)]

/-- C5, counterexample: after 2147483648 positive observations of "a" its
positive count is -2147483648, below 0; and after 4294967296 of them both of its
counts are 0, the denominator of the division in `GenScore` is 0 and the ratio
is 0/0, not a number. -/
theorem C5_count_negative_after_overflow :
    (0 < (build (List.replicate 2147483648 ("a".toList, true))).words.length ∧
      (build (List.replicate 2147483648 ("a".toList, true))).pos.getD 0 0 = -2147483648) ∧
    (0 < (build (List.replicate 4294967296 ("a".toList, true))).words.length ∧
      (build (List.replicate 4294967296 ("a".toList, true))).pos.getD 0 0 +
        (build (List.replicate 4294967296 ("a".toList, true))).neg.getD 0 0 = 0 ∧
      GenScore (build (List.replicate 4294967296 ("a".toList, true))) 0 = Flt.nan) := by
  have e1 : build (List.replicate 2147483648 ("a".toList, true)) =
      { pos := [-2147483648], neg := [0], words := ["a".toList],
        indices := [("a".toList, 0)], scores := [Flt.fin 0] } := by
    have h := build_replicate "a".toList 2147483647
    have e : List.replicate 2147483648 ("a".toList, true) =
        List.replicate (2147483647 + 1) ("a".toList, true) := rfl
    rw [e, h]
    decide
  have e2 : build (List.replicate 4294967296 ("a".toList, true)) =
      { pos := [0], neg := [0], words := ["a".toList],
        indices := [("a".toList, 0)], scores := [Flt.fin 0] } := by
    have h := build_replicate "a".toList 4294967295
    have e : List.replicate 4294967296 ("a".toList, true) =
        List.replicate (4294967295 + 1) ("a".toList, true) := rfl
    rw [e, h]
    decide
  rw [e1, e2]
  exact ⟨⟨by decide, rfl⟩, by decide, rfl, by decide!⟩

/-- C5, amended: in every lexicon built by at most 2147483647 `AddWord` calls,
every index `GenScores` visits has an entry in `pos` and in `neg`, both counts
are at least 0 and their sum is at least 1, so the denominator of the division
in `GenScore`, as an `int` and as the float it is converted to, is not zero. -/
theorem C5_counts_invariant (calls : List (DSString × Bool))
    (hlen : calls.length ≤ 2147483647) (i : Nat) (hi : i < (build calls).words.length) :
    i < (build calls).pos.length ∧ i < (build calls).neg.length ∧
      0 ≤ (build calls).pos.getD i 0 ∧ 0 ≤ (build calls).neg.getD i 0 ∧
      1 ≤ (build calls).pos.getD i 0 + (build calls).neg.getD i 0 ∧
      wrapInt ((build calls).pos.getD i 0 + (build calls).neg.getD i 0) ≠ 0 ∧
      Flt.ofInt (wrapInt ((build calls).pos.getD i 0 + (build calls).neg.getD i 0)) ≠
        Flt.fin 0 := by
  have hwf := WF_build calls
  obtain ⟨c1, c2, c3, c4⟩ := Counted_build calls hlen i hi
  have hw : wrapInt ((build calls).pos.getD i 0 + (build calls).neg.getD i 0) =
      (build calls).pos.getD i 0 + (build calls).neg.getD i 0 :=
    wrapInt_of_range _ (by omega) (by omega)
  refine ⟨by rw [hwf.pos_len]; exact hi, by rw [hwf.neg_len]; exact hi, c1, c2, c3, ?_, ?_⟩
  · rw [hw]
    omega
  · rw [hw]
    obtain ⟨r, hr, hr1, _⟩ := ofInt_of_pos _ c3 (by omega)
    rw [hr]
    intro e
    injection e with e
    rw [e] at hr1
    norm_num at hr1

/-- Witness of C5: the entry of "bad" in the example lexicon. -/
theorem C5_counts_invariant_witness :
    1 < (build goodBadCalls).words.length ∧
      1 ≤ (build goodBadCalls).pos.getD 1 0 + (build goodBadCalls).neg.getD 1 0 :=
  ⟨by decide, (C5_counts_invariant goodBadCalls (by decide) 1 (by decide)).2.2.2.2.1⟩

/-! ## The word loops hand on the same tokens -/

theorem gen_dict_words_eq (positive : Bool) (rest : List DSString) (word : DSString)
    (wc : WordCounts) :
    gen_dict_words positive word rest wc =
      ((emitFrom word rest).filterMap id).foldl (fun wc t => AddWord wc t positive) wc := by
  induction rest generalizing word wc with
  | nil =>
    simp only [gen_dict_words, emitFrom]
    split <;> simp
  | cons next rest ih =>
    simp only [gen_dict_words, emitFrom]
    split
    · rw [ih]; simp
    · rw [ih]; simp

theorem gen_dict_tweet_eq (wc : WordCounts) (tweet : Tweet) :
    gen_dict_tweet wc tweet =
      (tweet.user :: tokens (split tweet.text)).foldl
        (fun wc t => AddWord wc t (intToBool tweet.classification)) wc := by
  unfold gen_dict_tweet tokens
  cases split tweet.text with
  | nil => simp [emitted]
  | cons word rest => simp [emitted, gen_dict_words_eq]

theorem gen_dict_append (data : List Tweet) (tweet : Tweet) :
    gen_dict (data ++ [tweet]) = gen_dict_tweet (gen_dict data) tweet := by
  simp [gen_dict, List.foldl_append]

theorem WF_foldl_AddWord_flag (ts : List DSString) (b : Bool) (wc : WordCounts) (h : WF wc) :
    WF (ts.foldl (fun wc t => AddWord wc t b) wc) := by
  induction ts generalizing wc with
  | nil => exact h
  | cons t ts ih => exact ih _ (WF_AddWord wc t b h)

theorem WF_gen_dict_tweet (wc : WordCounts) (tweet : Tweet) (h : WF wc) :
    WF (gen_dict_tweet wc tweet) := by
  rw [gen_dict_tweet_eq]
  exact WF_foldl_AddWord_flag _ _ _ h

theorem WF_foldl_gen_dict_tweet (data : List Tweet) (wc : WordCounts) (h : WF wc) :
    WF (data.foldl gen_dict_tweet wc) := by
  induction data generalizing wc with
  | nil => exact h
  | cons t data ih => exact ih _ (WF_gen_dict_tweet wc t h)

theorem WF_gen_dict (data : List Tweet) : WF (gen_dict data) :=
  WF_foldl_gen_dict_tweet data _ WF_empty

/-! ## Counting observations -/

theorem posOf_range (wc : WordCounts) (h : WF wc) (w : DSString) :
    -2147483648 ≤ posOf wc w ∧ posOf wc w ≤ 2147483647 := by
  unfold posOf
  cases mapAt wc.indices w with
  | none => exact ⟨by norm_num, by norm_num⟩
  | some i => exact h.pos_range i

theorem negOf_range (wc : WordCounts) (h : WF wc) (w : DSString) :
    -2147483648 ≤ negOf wc w ∧ negOf wc w ≤ 2147483647 := by
  unfold negOf
  cases mapAt wc.indices w with
  | none => exact ⟨by norm_num, by norm_num⟩
  | some i => exact h.neg_range i

theorem posOf_AddWord_self (wc : WordCounts) (h : WF wc) (w : DSString) (b : Bool) :
    posOf (AddWord wc w b) w = wrapInt (posOf wc w + boolToInt b) := by
  cases hidx : mapAt wc.indices w with
  | some i =>
    have hlt := h.index_lt hidx
    rw [AddWord_present wc w b i hidx]
    simp only [posOf, hidx]
    rw [getD_set_self _ _ _ _ (by rw [h.pos_len]; exact hlt)]
  | none =>
    have e : posOf wc w = 0 := by simp [posOf, hidx]
    rw [e, AddWord_absent wc w b hidx]
    simp only [posOf, mapAt_mapInsert_self _ _ _ hidx]
    rw [← h.pos_len, getD_append_length, zero_add,
      wrapInt_of_range _ (boolToInt_range b).1 (boolToInt_range b).2]

theorem negOf_AddWord_self (wc : WordCounts) (h : WF wc) (w : DSString) (b : Bool) :
    negOf (AddWord wc w b) w = wrapInt (negOf wc w + boolToInt (!b)) := by
  cases hidx : mapAt wc.indices w with
  | some i =>
    have hlt := h.index_lt hidx
    rw [AddWord_present wc w b i hidx]
    simp only [negOf, hidx]
    rw [getD_set_self _ _ _ _ (by rw [h.neg_len]; exact hlt)]
  | none =>
    have e : negOf wc w = 0 := by simp [negOf, hidx]
    rw [e, AddWord_absent wc w b hidx]
    simp only [negOf, mapAt_mapInsert_self _ _ _ hidx]
    rw [← h.neg_len, getD_append_length, zero_add,
      wrapInt_of_range _ (boolToInt_range (!b)).1 (boolToInt_range (!b)).2]

theorem posOf_AddWord_ne (wc : WordCounts) (h : WF wc) (v w : DSString) (b : Bool)
    (hv : v ≠ w) : posOf (AddWord wc v b) w = posOf wc w := by
  have e := AddWord_indices_ne wc v w b hv
  simp only [posOf, e]
  cases hidx : mapAt wc.indices w with
  | none => rfl
  | some j =>
    have hj := h.index_lt hidx
    cases hv' : mapAt wc.indices v with
    | some i =>
      have hij : i ≠ j := by
        intro e2
        subst e2
        have h1 := h.at_word v i hv'
        rw [h.at_word w i hidx] at h1
        exact hv (Option.some.inj h1).symm
      rw [AddWord_present wc v b i hv']
      simp only
      rw [getD_set_ne _ _ _ _ _ hij]
    | none =>
      rw [AddWord_absent wc v b hv']
      simp only
      rw [getD_append_lt _ _ _ _ (by rw [h.pos_len]; exact hj)]

theorem negOf_AddWord_ne (wc : WordCounts) (h : WF wc) (v w : DSString) (b : Bool)
    (hv : v ≠ w) : negOf (AddWord wc v b) w = negOf wc w := by
  have e := AddWord_indices_ne wc v w b hv
  simp only [negOf, e]
  cases hidx : mapAt wc.indices w with
  | none => rfl
  | some j =>
    have hj := h.index_lt hidx
    cases hv' : mapAt wc.indices v with
    | some i =>
      have hij : i ≠ j := by
        intro e2
        subst e2
        have h1 := h.at_word v i hv'
        rw [h.at_word w i hidx] at h1
        exact hv (Option.some.inj h1).symm
      rw [AddWord_present wc v b i hv']
      simp only
      rw [getD_set_ne _ _ _ _ _ hij]
    | none =>
      rw [AddWord_absent wc v b hv']
      simp only
      rw [getD_append_lt _ _ _ _ (by rw [h.neg_len]; exact hj)]

/-- One `AddWord` call adds 1, in `int` arithmetic, to the positive count of its
word when the flag is true, and leaves every other positive count alone. -/
theorem posOf_AddWord (wc : WordCounts) (h : WF wc) (v w : DSString) (b : Bool) :
    posOf (AddWord wc v b) w = wrapInt (posOf wc w + (if v = w ∧ b = true then 1 else 0)) := by
  by_cases hv : v = w
  · subst hv
    rw [posOf_AddWord_self wc h]
    cases b <;> simp [boolToInt]
  · rw [posOf_AddWord_ne wc h v w b hv]
    simp only [hv, false_and, if_false, add_zero]
    rw [wrapInt_of_range _ (posOf_range wc h w).1 (posOf_range wc h w).2]

theorem negOf_AddWord (wc : WordCounts) (h : WF wc) (v w : DSString) (b : Bool) :
    negOf (AddWord wc v b) w = wrapInt (negOf wc w + (if v = w ∧ b = false then 1 else 0)) := by
  by_cases hv : v = w
  · subst hv
    rw [negOf_AddWord_self wc h]
    cases b <;> simp [boolToInt]
  · rw [negOf_AddWord_ne wc h v w b hv]
    simp only [hv, false_and, if_false, add_zero]
    rw [wrapInt_of_range _ (negOf_range wc h w).1 (negOf_range wc h w).2]

theorem posOf_foldl_AddWord (ts : List DSString) (b : Bool) (wc : WordCounts) (h : WF wc)
    (w : DSString) :
    posOf (ts.foldl (fun wc t => AddWord wc t b) wc) w =
      wrapInt (posOf wc w + (if b = true then (ts.count w : Int) else 0)) := by
  induction ts generalizing wc with
  | nil =>
    simp only [List.foldl_nil, List.count_nil, Nat.cast_zero, ite_self, add_zero]
    rw [wrapInt_of_range _ (posOf_range wc h w).1 (posOf_range wc h w).2]
  | cons t ts ih =>
    simp only [List.foldl_cons]
    rw [ih _ (WF_AddWord wc t b h), posOf_AddWord wc h, wrapInt_add, List.count_cons]
    congr 1
    cases b <;> by_cases htw : t = w <;> simp [htw, add_assoc, add_comm]

theorem negOf_foldl_AddWord (ts : List DSString) (b : Bool) (wc : WordCounts) (h : WF wc)
    (w : DSString) :
    negOf (ts.foldl (fun wc t => AddWord wc t b) wc) w =
      wrapInt (negOf wc w + (if b = false then (ts.count w : Int) else 0)) := by
  induction ts generalizing wc with
  | nil =>
    simp only [List.foldl_nil, List.count_nil, Nat.cast_zero, ite_self, add_zero]
    rw [wrapInt_of_range _ (negOf_range wc h w).1 (negOf_range wc h w).2]
  | cons t ts ih =>
    simp only [List.foldl_cons]
    rw [ih _ (WF_AddWord wc t b h), negOf_AddWord wc h, wrapInt_add, List.count_cons]
    congr 1
    cases b <;> by_cases htw : t = w <;> simp [htw, add_assoc, add_comm]

/-! ## The calls `gen_dict` makes -/

theorem build_append (a b : List (DSString × Bool)) :
    build (a ++ b) = b.foldl (fun wc c => AddWord wc c.1 c.2) (build a) := by
  simp [build, List.foldl_append]

/-- The lexicon `gen_dict` returns is the one built by its `AddWord` calls: record
by record, one for the author and then one for each token of the text, all with
the flag of that record's label. -/
theorem gen_dict_eq_build (data : List Tweet) :
    gen_dict data =
      build (data.flatMap fun t =>
        (t.user :: tokens (split t.text)).map fun x => (x, intToBool t.classification)) := by
  induction data using List.reverseRecOn with
  | nil => rfl
  | append_singleton data t ih =>
    rw [gen_dict_append, gen_dict_tweet_eq, List.flatMap_append, build_append, ← ih]
    simp only [List.flatMap_cons, List.flatMap_nil, List.append_nil, List.foldl_map]

theorem calls_length (data : List Tweet) :
    (data.flatMap fun t =>
      (t.user :: tokens (split t.text)).map fun x => (x, intToBool t.classification)).length =
      observations data := by
  induction data with
  | nil => rfl
  | cons t data ih =>
    rw [List.flatMap_cons, List.length_append, ih]
    simp only [List.length_map, List.length_cons, observations, List.map_cons, List.sum_cons]
    omega

theorem observations_append (data : List Tweet) (t : Tweet) :
    observations (data ++ [t]) = observations data + ((tokens (split t.text)).length + 1) := by
  simp only [observations, List.length_append, List.length_cons, List.length_nil,
    List.map_append, List.map_cons, List.map_nil, List.sum_append, List.sum_cons, List.sum_nil]
  omega

/-- While `gen_dict` has made at most 2147483647 observations, no count has
overflowed. -/
theorem Counted_gen_dict (data : List Tweet) (h : observations data ≤ 2147483647) :
    Counted (observations data : Int) (gen_dict data) := by
  rw [gen_dict_eq_build, ← calls_length]
  exact Counted_build _ (by rw [calls_length]; exact h)

theorem posOf_Counted (wc : WordCounts) (hwf : WF wc) (k : Int) (hk : 0 ≤ k)
    (hc : Counted k wc) (w : DSString) :
    0 ≤ posOf wc w ∧ 0 ≤ negOf wc w ∧ posOf wc w + negOf wc w ≤ k := by
  unfold posOf negOf
  cases hidx : mapAt wc.indices w with
  | none => exact ⟨le_refl 0, le_refl 0, by simpa using hk⟩
  | some i =>
    obtain ⟨h1, h2, _, h4⟩ := hc i (hwf.index_lt hidx)
    exact ⟨h1, h2, h4⟩

/-! ## The sum of all counts -/

theorem sum_set_getD_add (l : List Int) (i : Nat) (d : Int) (h : i < l.length) :
    (l.set i (l.getD i 0 + d)).sum = l.sum + d := by
  induction l generalizing i with
  | nil => simp at h
  | cons a l ih =>
    cases i with
    | zero => simp [List.sum_cons]; ring
    | succ k =>
      simp only [List.length_cons, Nat.add_lt_add_iff_right] at h
      simp only [List.set_cons_succ, List.sum_cons, List.getD_cons_succ, ih k h]
      ring

/-- One more observation adds 1 to the sum of all counts, as long as no count
has reached the largest `int`. -/
theorem AddWord_total (wc : WordCounts) (h : WF wc) (k : Int) (hk : k < 2147483647)
    (hc : Counted k wc) (w : DSString) (b : Bool) :
    (AddWord wc w b).pos.sum + (AddWord wc w b).neg.sum = wc.pos.sum + wc.neg.sum + 1 := by
  have hb := boolToInt_add_not b
  have hb1 := boolToInt_nonneg b
  have hb2 := boolToInt_nonneg (!b)
  cases hidx : mapAt wc.indices w with
  | some i =>
    have hlt := h.index_lt hidx
    obtain ⟨c1, c2, c3, c4⟩ := hc i hlt
    rw [AddWord_present wc w b i hidx]
    simp only
    rw [wrapInt_of_range _ (by omega) (by omega), wrapInt_of_range _ (by omega) (by omega),
      sum_set_getD_add _ _ _ (by rw [h.pos_len]; exact hlt),
      sum_set_getD_add _ _ _ (by rw [h.neg_len]; exact hlt)]
    omega
  | none =>
    rw [AddWord_absent wc w b hidx]
    simp only [List.sum_append, List.sum_singleton]
    omega

theorem foldl_AddWord_total (calls : List (DSString × Bool)) (wc : WordCounts) (hwf : WF wc)
    (k : Int) (hk0 : 0 ≤ k) (hk : k + (calls.length : Int) ≤ 2147483647) (hc : Counted k wc) :
    (calls.foldl (fun wc c => AddWord wc c.1 c.2) wc).pos.sum +
        (calls.foldl (fun wc c => AddWord wc c.1 c.2) wc).neg.sum =
      wc.pos.sum + wc.neg.sum + (calls.length : Int) := by
  induction calls generalizing wc k with
  | nil => simp
  | cons c calls ih =>
    simp only [List.length_cons, Nat.cast_add, Nat.cast_one] at hk ⊢
    simp only [List.foldl_cons]
    rw [ih (AddWord wc c.1 c.2) (WF_AddWord wc c.1 c.2 hwf) (k + 1) (by omega) (by omega)
      (Counted_AddWord wc hwf k hk0 (by omega) hc c.1 c.2),
      AddWord_total wc hwf k (by omega) hc]
    ring

theorem build_total (calls : List (DSString × Bool)) (hlen : calls.length ≤ 2147483647) :
    (build calls).pos.sum + (build calls).neg.sum = (calls.length : Int) := by
  have := foldl_AddWord_total calls WordCounts.empty WF_empty 0 (le_refl 0) (by omega)
    Counted_empty
  simpa [build, WordCounts.empty] using this

theorem sum_zipWith_add (l1 l2 : List Int) (h : l1.length = l2.length) :
    (List.zipWith (· + ·) l1 l2).sum = l1.sum + l2.sum := by
  induction l1 generalizing l2 with
  | nil =>
    cases l2 with
    | nil => rfl
    | cons b l2 => simp at h
  | cons a l1 ih =>
    cases l2 with
    | nil => simp at h
    | cons b l2 =>
      simp only [List.length_cons, Nat.add_right_cancel_iff] at h
      simp only [List.zipWith_cons_cons, List.sum_cons, ih l2 h]
      ring

theorem flatMap_replicate_pair {α β : Type} (n : Nat) (a : α) (f : α → List β) (x : β)
    (h : f a = [x, x]) : (List.replicate n a).flatMap f = List.replicate (2 * n) x := by
  induction n with
  | zero => rfl
  | succ n ih =>
    rw [List.replicate_succ, List.flatMap_cons, ih, h,
      show 2 * (n + 1) = (2 * n + 1) + 1 by ring, List.replicate_succ, List.replicate_succ]
    rfl

/-- C6, counterexample: the record `neutralTweet` carries the label 2, which is
not the positive label 4, and `gen_dict` still counts its author "al" and its
token "good" as positive: positive count 1, negative count 0. -/
theorem C6_label_two_counted_positive :
    neutralTweet.classification ≠ 4 ∧
      posOf (gen_dict [neutralTweet]) "al".toList = 1 ∧
      negOf (gen_dict [neutralTweet]) "al".toList = 0 ∧
      posOf (gen_dict [neutralTweet]) "good".toList = 1 ∧
      negOf (gen_dict [neutralTweet]) "good".toList = 0 := by
  decide

/-- C6, amended: a record is counted as positive exactly when its class label is
not 0. Processing a record after any others adds, for every word, the number of
its occurrences among the author and the emitted tokens to the positive count
when the label is not 0 (4 and 2 alike) and to the negative count when the label
is 0; the other count stays as it was. The additions are those of `int`, and
they are exact while at most 2147483647 observations have been made. -/
theorem C6_positive_iff_label_nonzero (data : List Tweet) (tweet : Tweet) (w : DSString) :
    posOf (gen_dict (data ++ [tweet])) w =
        wrapInt (posOf (gen_dict data) w +
          (if tweet.classification ≠ 0 then
            ((tweet.user :: tokens (split tweet.text)).count w : Int) else 0)) ∧
      negOf (gen_dict (data ++ [tweet])) w =
        wrapInt (negOf (gen_dict data) w +
          (if tweet.classification = 0 then
            ((tweet.user :: tokens (split tweet.text)).count w : Int) else 0)) ∧
      (observations (data ++ [tweet]) ≤ 2147483647 →
        posOf (gen_dict (data ++ [tweet])) w =
          posOf (gen_dict data) w +
            (if tweet.classification ≠ 0 then
              ((tweet.user :: tokens (split tweet.text)).count w : Int) else 0) ∧
        negOf (gen_dict (data ++ [tweet])) w =
          negOf (gen_dict data) w +
            (if tweet.classification = 0 then
              ((tweet.user :: tokens (split tweet.text)).count w : Int) else 0)) := by
  have hp : posOf (gen_dict (data ++ [tweet])) w =
      wrapInt (posOf (gen_dict data) w +
        (if tweet.classification ≠ 0 then
          ((tweet.user :: tokens (split tweet.text)).count w : Int) else 0)) := by
    rw [gen_dict_append, gen_dict_tweet_eq, posOf_foldl_AddWord _ _ _ (WF_gen_dict data)]
    by_cases h : tweet.classification = 0 <;> simp [intToBool, h]
  have hn : negOf (gen_dict (data ++ [tweet])) w =
      wrapInt (negOf (gen_dict data) w +
        (if tweet.classification = 0 then
          ((tweet.user :: tokens (split tweet.text)).count w : Int) else 0)) := by
    rw [gen_dict_append, gen_dict_tweet_eq, negOf_foldl_AddWord _ _ _ (WF_gen_dict data)]
    by_cases h : tweet.classification = 0 <;> simp [intToBool, h]
  refine ⟨hp, hn, ?_⟩
  intro hobs
  rw [observations_append] at hobs
  have hc := Counted_gen_dict data (by omega)
  obtain ⟨p0, n0, hsum⟩ := posOf_Counted (gen_dict data) (WF_gen_dict data) _
    (Int.natCast_nonneg _) hc w
  have hcount : (tweet.user :: tokens (split tweet.text)).count w ≤
      (tokens (split tweet.text)).length + 1 := by
    have := List.count_le_length w (tweet.user :: tokens (split tweet.text))
    simpa using this
  generalize (tweet.user :: tokens (split tweet.text)).count w = c at hp hn hcount ⊢
  rw [hp, hn]
  constructor
  · apply wrapInt_of_range <;> split <;> omega
  · apply wrapInt_of_range <;> split <;> omega

/-! ## `filter_tweet` -/

theorem startsWith_iff (pat w : DSString) : startsWith pat w = true ↔ pat <+: w := by
  induction pat generalizing w with
  | nil => simp [startsWith]
  | cons p pat ih =>
    cases w with
    | nil => simp [startsWith]
    | cons c w => simp [startsWith, List.cons_prefix_cons, ih]

theorem includes_iff (w pat : DSString) : includes w pat = true ↔ pat <:+: w := by
  induction w with
  | nil => simp [includes, startsWith_iff]
  | cons c w ih =>
    simp only [includes, Bool.or_eq_true, startsWith_iff, ih, List.infix_cons_iff]

theorem isASCII_iff (w : DSString) : isASCII w = true ↔ ∀ c ∈ w, c.toNat < 128 := by
  simp [isASCII, List.all_eq_true]

/-- The word `filter_tweet` leaves once the word has passed the checks. -/
theorem filter_tweet_of_checks (word : DSString) (h1 : toLower word ≠ [])
    (h2 : includes (toLower word) "http://".toList = false)
    (h3 : includes (toLower word) "https://".toList = false)
    (h4 : isASCII (toLower word) = true) :
    filter_tweet word =
      (decide ((filterStrings.foldl filter (toLower word)).length ≥ 2),
        filterStrings.foldl filter (toLower word)) := by
  unfold filter_tweet
  simp only [if_neg h1, h2, h3, h4, Bool.false_eq_true, if_false, Bool.not_true]
  rfl

/-- A failed check makes `filter_tweet` return false. -/
theorem filter_tweet_of_failed_check (word : DSString)
    (h : toLower word = [] ∨ includes (toLower word) "http://".toList = true ∨
      includes (toLower word) "https://".toList = true ∨ isASCII (toLower word) = false) :
    (filter_tweet word).1 = false := by
  unfold filter_tweet
  by_cases h1 : toLower word = []
  · simp only [h1, if_true]
  by_cases h2 : includes (toLower word) "http://".toList = true
  · simp only [if_neg h1, h2, if_true]
  by_cases h3 : includes (toLower word) "https://".toList = true
  · simp only [if_neg h1, h2, h3, if_true, if_false, Bool.false_eq_true]
  have h4 : isASCII (toLower word) = false := by
    rcases h with h | h | h | h
    · exact absurd h h1
    · exact absurd h h2
    · exact absurd h h3
    · exact h
  simp only [if_neg h1, h2, h3, h4, if_false, Bool.not_false, if_true, Bool.false_eq_true]

/-- C7: `filter_tweet` returns false exactly when the lower-cased word is empty,
or contains "http://" or "https://" as a substring, or has a character that is
not ASCII, or has fewer than 2 characters left once the eleven filter strings
have been removed in the order of the calls. -/
theorem C7_filter_tweet_rejects_iff (word : DSString) :
    (filter_tweet word).1 = false ↔
      (toLower word = [] ∨ "http://".toList <:+: toLower word ∨
        "https://".toList <:+: toLower word ∨ (∃ c ∈ toLower word, 128 ≤ c.toNat) ∨
        (filterStrings.foldl filter (toLower word)).length < 2) := by
  by_cases h1 : toLower word = []
  · simp only [filter_tweet_of_failed_check word (Or.inl h1), h1, true_or]
  by_cases h2 : includes (toLower word) "http://".toList = true
  · simp only [filter_tweet_of_failed_check word (Or.inr (Or.inl h2)),
      (includes_iff _ _).1 h2, true_or, or_true]
  by_cases h3 : includes (toLower word) "https://".toList = true
  · simp only [filter_tweet_of_failed_check word (Or.inr (Or.inr (Or.inl h3))),
      (includes_iff _ _).1 h3, true_or, or_true]
  have n2 : ¬ "http://".toList <:+: toLower word := fun h => h2 ((includes_iff _ _).2 h)
  have n3 : ¬ "https://".toList <:+: toLower word := fun h => h3 ((includes_iff _ _).2 h)
  by_cases h4 : isASCII (toLower word) = true
  · have n4 : ¬ ∃ c ∈ toLower word, 128 ≤ c.toNat := by
      rintro ⟨c, hc, hge⟩
      have := (isASCII_iff _).1 h4 c hc
      omega
    rw [filter_tweet_of_checks word h1 (by simpa using h2) (by simpa using h3) h4]
    simp only [h1, n2, n3, n4, false_or]
    simp
  · have e4 : ∃ c ∈ toLower word, 128 ≤ c.toNat := by
      by_contra hne
      apply h4
      rw [isASCII_iff]
      intro c hc
      by_contra hlt
      exact hne ⟨c, hc, by omega⟩
    simp only [filter_tweet_of_failed_check word
      (Or.inr (Or.inr (Or.inr (by simpa using h4)))), e4, true_or, or_true]

/-- What an accepting call of `filter_tweet` has checked, and the word it leaves. -/
theorem filter_tweet_accepts (word : DSString) (h : (filter_tweet word).1 = true) :
    toLower word ≠ [] ∧ includes (toLower word) "http://".toList = false ∧
      includes (toLower word) "https://".toList = false ∧ isASCII (toLower word) = true ∧
      (filter_tweet word).2 = filterStrings.foldl filter (toLower word) ∧
      2 ≤ (filterStrings.foldl filter (toLower word)).length := by
  have hne : (filter_tweet word).1 ≠ false := by
    rw [h]
    exact Bool.noConfusion
  have h1 : toLower word ≠ [] := fun e =>
    hne (filter_tweet_of_failed_check word (Or.inl e))
  have h2 : includes (toLower word) "http://".toList = false := by
    cases hi : includes (toLower word) "http://".toList with
    | false => rfl
    | true => exact absurd (filter_tweet_of_failed_check word (Or.inr (Or.inl hi))) (hne)
  have h3 : includes (toLower word) "https://".toList = false := by
    cases hi : includes (toLower word) "https://".toList with
    | false => rfl
    | true =>
      exact absurd (filter_tweet_of_failed_check word (Or.inr (Or.inr (Or.inl hi)))) (hne)
  have h4 : isASCII (toLower word) = true := by
    cases hi : isASCII (toLower word) with
    | true => rfl
    | false =>
      exact absurd (filter_tweet_of_failed_check word (Or.inr (Or.inr (Or.inr hi)))) (hne)
  have hw := filter_tweet_of_checks word h1 h2 h3 h4
  refine ⟨h1, h2, h3, h4, by rw [hw], ?_⟩
  rw [hw] at h
  simpa using h

theorem filterAux_sublist (pat : DSString) (w : DSString) (skip : Nat) :
    (filterAux pat skip w).Sublist w := by
  induction w generalizing skip with
  | nil => simp [filterAux]
  | cons c w ih =>
    cases skip with
    | succ k =>
      simp only [filterAux]
      exact (ih k).trans (List.sublist_cons_self c w)
    | zero =>
      simp only [filterAux]
      split
      · exact (ih _).trans (List.sublist_cons_self c w)
      · exact (ih 0).cons₂ c

theorem filter_sublist (w pat : DSString) : (filter w pat).Sublist w :=
  filterAux_sublist pat w 0

theorem filter_single_not_mem (c : Char) (w : DSString) : c ∉ filter w [c] := by
  unfold filter
  induction w with
  | nil => simp [filterAux]
  | cons x w ih =>
    simp only [filterAux, startsWith]
    by_cases hx : c = x
    · subst hx
      simpa using ih
    · simp only [beq_iff_eq, hx, Bool.and_true, Bool.false_eq_true, if_false,
        List.mem_cons, false_or, decide_False]
      exact ih

theorem foldl_filter_sublist (l : List DSString) (w : DSString) :
    (l.foldl filter w).Sublist w := by
  induction l generalizing w with
  | nil => exact List.Sublist.refl _
  | cons p l ih => exact (ih _).trans (filter_sublist w p)

theorem foldl_filter_single_not_mem (l : List DSString) (w : DSString) (c : Char)
    (h : [c] ∈ l) : c ∉ l.foldl filter w := by
  induction l generalizing w with
  | nil => simp at h
  | cons p l ih =>
    simp only [List.foldl_cons]
    rcases List.mem_cons.1 h with hp | hl
    · subst hp
      intro hc
      exact filter_single_not_mem c w ((foldl_filter_sublist l _).subset hc)
    · exact ih _ hl

theorem toLower_char_not_upper (c : Char) : (Char.toLower c).isUpper = false := by
  unfold Char.toLower
  by_cases h : c.toNat ≥ 65 ∧ c.toNat ≤ 90
  · simp only [h, and_self, if_true]
    obtain ⟨h1, h2⟩ := h
    generalize c.toNat = n at h1 h2
    interval_cases n <;> rfl
  · simp only [h, if_false]
    simp only [Char.isUpper, Bool.and_eq_false_imp, decide_eq_true_eq, decide_eq_false_iff_not]
    intro h1 h2
    apply h
    exact ⟨h1, h2⟩

theorem toLower_not_upper (w : DSString) : ∀ c ∈ toLower w, c.isUpper = false := by
  intro c hc
  simp only [toLower, List.mem_map] at hc
  obtain ⟨a, _, rfl⟩ := hc
  exact toLower_char_not_upper a

/-- C8, counterexample: `filter_tweet` accepts the word `&l!t;` and leaves
`&lt;`, one of the filter strings: it is formed when the later call removes the
`!`, after the call for `&lt;` has run. -/
theorem C8_filter_string_left_in_word :
    (filter_tweet "&l!t;".toList).1 = true ∧ "&lt;".toList ∈ filterStrings ∧
      "&lt;".toList <:+: (filter_tweet "&l!t;".toList).2 := by
  have h : filter_tweet "&l!t;".toList = (true, "&lt;".toList) := by decide
  rw [h]
  exact ⟨rfl, by decide, List.infix_refl _⟩

/-- C8, amended: the word an accepting call of `filter_tweet` leaves contains
none of the filter strings of one character (the double quote, the two brackets,
the apostrophe, `=`, `?`, `.`, `!`) and no upper-case letter. -/
theorem C8_cleaned_word (word : DSString) (h : (filter_tweet word).1 = true) :
    (∀ pat ∈ filterStrings, pat.length = 1 → ¬ pat <:+: (filter_tweet word).2) ∧
      ∀ c ∈ (filter_tweet word).2, c.isUpper = false := by
  obtain ⟨_, _, _, _, hw, _⟩ := filter_tweet_accepts word h
  rw [hw]
  constructor
  · intro pat hpat hlen hin
    obtain ⟨c, rfl⟩ := List.length_eq_one.1 hlen
    apply foldl_filter_single_not_mem filterStrings (toLower word) c hpat
    exact hin.subset (List.mem_singleton_self c)
  · intro c hc
    exact toLower_not_upper word c ((foldl_filter_sublist _ _).subset hc)

/-- Witness of C8: "Great!!" is accepted and cleaned to "great". -/
theorem C8_cleaned_word_witness :
    filter_tweet "Great!!".toList = (true, "great".toList) ∧
      (∀ pat ∈ filterStrings, pat.length = 1 →
        ¬ pat <:+: (filter_tweet "Great!!".toList).2) ∧
      ∀ c ∈ (filter_tweet "Great!!".toList).2, c.isUpper = false :=
  ⟨by decide, C8_cleaned_word "Great!!".toList (by decide)⟩

/-! ## The word loop, round by round -/

theorem slotsFrom_head (cur : DSString) (rest : List DSString) :
    (slotsFrom cur rest)[0]? = some cur := by
  cases rest <;> simp [slotsFrom]

theorem filter_tweet_nil : (filter_tweet []).1 = false := by decide

theorem emitFrom_nil_head (rest : List DSString) : (emitFrom [] rest)[0]? = some none := by
  cases rest <;> simp [emitFrom, filter_tweet_nil]

theorem check_biagram_merge (c next : DSString)
    (hc : c = "not".toList ∨ c = "very".toList) :
    check_biagram c next = (c ++ " ".toList ++ next, []) := by
  rcases hc with rfl | rfl
  · have hne : ¬ ("not".toList ++ " ".toList ++ next = "very".toList) := by
      intro h
      have h0 : 'n' :: ("ot".toList ++ " ".toList ++ next) = 'v' :: "ery".toList := h
      exact absurd (List.cons.inj h0).1 (by decide)
    simp only [check_biagram, if_true, if_neg hne]
  · have hne : ¬ ("very".toList = "not".toList) := by decide
    simp only [check_biagram, if_neg hne, if_true]

theorem emitFrom_merge (rest : List DSString) (cur : DSString) (j : Nat) (w nxt : DSString)
    (hw : (cur :: rest)[j]? = some w) (hn : (cur :: rest)[j + 1]? = some nxt)
    (hs : (slotsFrom cur rest)[j]? = some w) (hacc : (filter_tweet w).1 = true)
    (hc : (filter_tweet w).2 = "not".toList ∨ (filter_tweet w).2 = "very".toList) :
    (emitFrom cur rest)[j]? = some (some ((filter_tweet w).2 ++ " ".toList ++ nxt)) ∧
      (emitFrom cur rest)[j + 1]? = some none := by
  induction rest generalizing cur j with
  | nil => simp at hn
  | cons next rest ih =>
    cases j with
    | zero =>
      simp only [List.getElem?_cons_zero, Option.some.injEq] at hw
      simp only [zero_add, List.getElem?_cons_succ, List.getElem?_cons_zero,
        Option.some.injEq] at hn
      subst hw
      subst hn
      simp only [emitFrom, hacc, if_true, check_biagram_merge _ next hc,
        List.getElem?_cons_zero, zero_add, List.getElem?_cons_succ, emitFrom_nil_head,
        and_self]
    | succ k =>
      simp only [List.getElem?_cons_succ] at hw hn
      simp only [slotsFrom, List.getElem?_cons_succ] at hs
      simp only [emitFrom]
      by_cases ha : (filter_tweet cur).1 = true
      · simp only [ha, if_true, List.getElem?_cons_succ] at hs ⊢
        apply ih _ k _ _ hs
        · cases k with
          | zero =>
            rw [slotsFrom_head] at hs
            simpa using hs
          | succ i => simpa using hw
        · simpa using hn
      · simp only [ha, Bool.false_eq_true, if_false, List.getElem?_cons_succ] at hs ⊢
        exact ih next k hw (by simpa using hn) hs

/-- C9, counterexample: in `["not", "very", "bad"]` the word at position 1 is
accepted by `filter_tweet` and cleans to "very", and it is not the last word;
the round at position 1 hands on no token (the round at position 0 merged the
word into "not very" and left the slot empty), and position 2 hands on "bad". -/
theorem C9_consumed_word_not_merged :
    (filter_tweet "very".toList).1 = true ∧
      (filter_tweet "very".toList).2 = "very".toList ∧
      (emitted ["not".toList, "very".toList, "bad".toList])[1]? = some none ∧
      (emitted ["not".toList, "very".toList, "bad".toList])[2]? =
        some (some "bad".toList) := by
  decide

/-- C9, amended: for every sequence of split words and every position `j` that
is not the last, if the round at `j` finds the split word `w` still in its slot
(the round before has not merged it away), `filter_tweet` accepts `w` and its
cleaned form is exactly "not" or "very", then the token handed on at `j` is the
cleaned form, a space, and the raw word at `j + 1`, and the round at `j + 1`
hands on no token. -/
theorem C9_bigram_merge (parts : List DSString) (j : Nat) (w nxt : DSString)
    (hw : parts[j]? = some w) (hn : parts[j + 1]? = some nxt)
    (hs : (slots parts)[j]? = some w) (hacc : (filter_tweet w).1 = true)
    (hc : (filter_tweet w).2 = "not".toList ∨ (filter_tweet w).2 = "very".toList) :
    (emitted parts)[j]? = some (some ((filter_tweet w).2 ++ " ".toList ++ nxt)) ∧
      (emitted parts)[j + 1]? = some none := by
  cases parts with
  | nil => simp at hw
  | cons cur rest => exact emitFrom_merge rest cur j w nxt hw hn hs hacc hc

/-- Witness of C9: `["not", "bad"]` hands on the one token "not bad". -/
theorem C9_bigram_merge_witness :
    tokens ["not".toList, "bad".toList] = ["not bad".toList] ∧
      (emitted ["not".toList, "bad".toList])[0]? =
        some (some ((filter_tweet "not".toList).2 ++ " ".toList ++ "bad".toList)) ∧
      (emitted ["not".toList, "bad".toList])[0 + 1]? = some none :=
  ⟨by decide,
    C9_bigram_merge ["not".toList, "bad".toList] 0 "not".toList "bad".toList (by decide)
      (by decide) (by decide) (by decide) (Or.inl (by decide))⟩

/-! ## The decision of `run_inference` -/

theorem run_inference_words_eq (weights : WordCounts) (rest : List DSString)
    (word : DSString) (score : Flt) :
    run_inference_words weights word rest score =
      ((emitFrom word rest).filterMap id).foldl (fun s t => Flt.add s (GetScore weights t))
        score := by
  induction rest generalizing word score with
  | nil =>
    simp only [run_inference_words, emitFrom]
    split <;> simp
  | cons next rest ih =>
    simp only [run_inference_words, emitFrom]
    split
    · rw [ih]; simp
    · rw [ih]; simp

/-- The score of a record: starting from 0, the score of the author and then the
score of each token handed on are added, one float addition after the other. -/
theorem run_inference_score_eq (weights : WordCounts) (tweet : Tweet) :
    run_inference_score weights tweet =
      (tokens (split tweet.text)).foldl (fun s t => Flt.add s (GetScore weights t))
        (Flt.add (Flt.fin 0) (GetScore weights tweet.user)) := by
  unfold run_inference_score tokens
  cases split tweet.text with
  | nil => simp [emitted]
  | cons word rest => simp [emitted, run_inference_words_eq]

theorem run_inference_prediction_eq (weights : WordCounts) (tweet : Tweet) :
    run_inference_prediction weights tweet =
      (if Flt.lt biasThreshold
          (Flt.div (run_inference_score weights tweet)
            (Flt.ofInt ((split tweet.text).length + 1))) = true then 1 else 0) * 4 := rfl

/-- Example: 47 records labelled 4 and 53 records labelled 0, all of the author
"u" with the one-letter text "x", which `filter_tweet` rejects. Training counts
"u" 47 times as positive and 53 times as negative; its score is the float nearest
to -6/100, and the average of each record, that score divided by 2, is
-16106127/536870912 (-0.0299999993...), greater than the constant `-.03`: every
record is predicted 4, although -6/100 divided by 2 is exactly -3/100. -/
theorem prediction_at_rounded_average :
    GetScore
        (run_training
          (List.replicate 47
              { id := [], user := "u".toList, text := "x".toList, classification := 4 } ++
            List.replicate 53
              { id := [], user := "u".toList, text := "x".toList, classification := 0 }))
        "u".toList = Flt.round (-6 / 100) ∧
      Flt.div (Flt.round (-6 / 100)) (Flt.ofInt 2) = Flt.fin (-16106127 / 536870912) ∧
      run_inference_prediction
        (run_training
          (List.replicate 47
              { id := [], user := "u".toList, text := "x".toList, classification := 4 } ++
            List.replicate 53
              { id := [], user := "u".toList, text := "x".toList, classification := 0 }))
        { id := [], user := "u".toList, text := "x".toList, classification := 0 } = 4 := by
  decide!

/-! ## Records whose words all score 0 -/

theorem GetScore_empty (word : DSString) : GetScore WordCounts.empty word = Flt.fin 0 := rfl

theorem add_zero_zero : Flt.add (Flt.fin 0) (Flt.fin 0) = Flt.fin 0 := by
  simp [Flt.add, round_zero]

theorem foldl_add_zero (weights : WordCounts) (ts : List DSString)
    (h : ∀ t ∈ ts, GetScore weights t = Flt.fin 0) :
    ts.foldl (fun s t => Flt.add s (GetScore weights t)) (Flt.fin 0) = Flt.fin 0 := by
  induction ts with
  | nil => rfl
  | cons t ts ih =>
    rw [List.foldl_cons, h t (List.mem_cons_self _ _), add_zero_zero,
      ih (fun x hx => h x (List.mem_cons_of_mem _ hx))]

/-- Zero divided by the float of a positive count is zero. -/
theorem div_zero_ofInt (x : Int) (hx : 1 ≤ x) :
    Flt.div (Flt.fin 0) (Flt.ofInt x) = Flt.fin 0 := by
  rcases ofInt_pos_cases x hx with ⟨r, hr, hr1⟩ | hinf
  · rw [hr, div_fin_of_ne_zero 0 r (by linarith), zero_div, round_zero]
  · rw [hinf]
    rfl

theorem run_inference_score_zero (weights : WordCounts) (tweet : Tweet)
    (hu : GetScore weights tweet.user = Flt.fin 0)
    (ht : ∀ t ∈ tokens (split tweet.text), GetScore weights t = Flt.fin 0) :
    run_inference_score weights tweet = Flt.fin 0 := by
  rw [run_inference_score_eq, hu, add_zero_zero, foldl_add_zero _ _ ht]

theorem prediction_of_score_zero (weights : WordCounts) (tweet : Tweet)
    (h : run_inference_score weights tweet = Flt.fin 0) :
    run_inference_prediction weights tweet = 4 := by
  rw [run_inference_prediction_eq, h, div_zero_ofInt _ (by omega),
    lt_biasThreshold_of_nonneg 0 (le_refl 0)]
  rfl

theorem prediction_empty (tweet : Tweet) :
    run_inference_prediction WordCounts.empty tweet = 4 :=
  prediction_of_score_zero _ _
    (run_inference_score_zero _ _ (GetScore_empty _) (fun t _ => GetScore_empty t))

/-- C11: for every lexicon and every record whose author and whose tokens all
have score 0 in that lexicon, the score of the record is 0, so is the score
divided by the number of split words plus 1, and `run_inference` predicts the
positive label 4. -/
theorem C11_zero_scores_predict_positive (weights : WordCounts) (tweet : Tweet)
    (hu : GetScore weights tweet.user = Flt.fin 0)
    (ht : ∀ t ∈ tokens (split tweet.text), GetScore weights t = Flt.fin 0) :
    run_inference_score weights tweet = Flt.fin 0 ∧
      Flt.div (run_inference_score weights tweet)
        (Flt.ofInt ((split tweet.text).length + 1)) = Flt.fin 0 ∧
      run_inference_prediction weights tweet = 4 := by
  have h := run_inference_score_zero weights tweet hu ht
  refine ⟨h, ?_, prediction_of_score_zero weights tweet h⟩
  rw [h, div_zero_ofInt _ (by omega)]

/-- Witness of C11: a record with empty text and an author the trained example
lexicon has never seen, and the record "great day" against the empty lexicon. -/
theorem C11_zero_scores_predict_positive_witness :
    run_inference_prediction (GenScores (build goodBadCalls))
        { id := "1".toList, user := "zed".toList, text := [], classification := 0 } = 4 ∧
      run_inference_prediction WordCounts.empty
        { id := "2".toList, user := "al".toList, text := "great day".toList,
          classification := 0 } = 4 :=
  ⟨(C11_zero_scores_predict_positive (GenScores (build goodBadCalls))
      { id := "1".toList, user := "zed".toList, text := [], classification := 0 }
      (by simp only [GetScore, GenScores_indices]; decide)
      (by intro t ht; simp [tokens, split, splitAux, emitted] at ht)).2.2,
    (C11_zero_scores_predict_positive WordCounts.empty
      { id := "2".toList, user := "al".toList, text := "great day".toList,
        classification := 0 }
      (GetScore_empty _) (fun t _ => GetScore_empty t)).2.2⟩

/-! ## Training and inference read the same tokens -/

/-- C12: for every record, the word loop of `gen_dict` and the word loop of
`run_inference` work through one and the same sequence of tokens, in the same
order: `gen_dict` calls `AddWord` on the author and then on each token of
`tokens (split text)` in turn, and `run_inference` adds `GetScore` of the author
and then of each token of that same list in turn. -/
theorem C12_same_tokens (word_counts weights : WordCounts) (tweet : Tweet) :
    gen_dict_tweet word_counts tweet =
        (tokens (split tweet.text)).foldl
          (fun wc t => AddWord wc t (intToBool tweet.classification))
          (AddWord word_counts tweet.user (intToBool tweet.classification)) ∧
      run_inference_score weights tweet =
        (tokens (split tweet.text)).foldl (fun s t => Flt.add s (GetScore weights t))
          (Flt.add (Flt.fin 0) (GetScore weights tweet.user)) := by
  constructor
  · rw [gen_dict_tweet_eq, List.foldl_cons]
  · rw [run_inference_score_eq]

/-! ## The tallies of `run_inference` -/

theorem run_inference_fold (weights : WordCounts) (data : List Tweet)
    (st : List Tweet × Int × Int) :
    data.foldl
        (fun st tweet =>
          if tweet.classification ≠ run_inference_prediction weights tweet then
            (st.1 ++ [tweet], st.2.1, st.2.2 + 1)
          else (st.1, st.2.1 + 1, st.2.2))
        st =
      (st.1 ++ data.filter
          (fun t => decide (t.classification ≠ run_inference_prediction weights t)),
        st.2.1 + ((data.filter
          (fun t => decide (t.classification = run_inference_prediction weights t))).length : Int),
        st.2.2 + ((data.filter
          (fun t => decide (t.classification ≠ run_inference_prediction weights t))).length : Int)) := by
  induction data generalizing st with
  | nil => simp
  | cons t data ih =>
    rw [List.foldl_cons, ih]
    by_cases h : t.classification = run_inference_prediction weights t
    · simp [h, List.filter_cons, add_assoc, add_comm]
    · simp [h, List.filter_cons, add_assoc, add_comm]

theorem run_inference_right (weights : WordCounts) (data : List Tweet) :
    (run_inference weights data).right =
      ((data.filter
        (fun t => decide (t.classification = run_inference_prediction weights t))).length : Int) := by
  simp only [run_inference, run_inference_fold, zero_add]

theorem run_inference_wrong (weights : WordCounts) (data : List Tweet) :
    (run_inference weights data).wrong =
      ((data.filter
        (fun t => decide (t.classification ≠ run_inference_prediction weights t))).length : Int) := by
  simp only [run_inference, run_inference_fold, zero_add]

theorem run_inference_accuracy (weights : WordCounts) (data : List Tweet) :
    (run_inference weights data).accuracy =
      Flt.div (Flt.ofInt (run_inference weights data).right)
        (Flt.ofInt ((run_inference weights data).right + (run_inference weights data).wrong)) := by
  rfl

theorem filter_length_add (data : List Tweet) (p : Tweet → Prop) [DecidablePred p] :
    (data.filter (fun t => decide (p t))).length +
      (data.filter (fun t => decide (¬ p t))).length = data.length := by
  induction data with
  | nil => rfl
  | cons t data ih =>
    by_cases h : p t
    · simp only [List.filter_cons, h, decide_True, decide_False, not_true_eq_false,
        if_true, Bool.false_eq_true, if_false, List.length_cons]
      omega
    · simp only [List.filter_cons, h, decide_True, decide_False, not_false_eq_true,
        if_true, Bool.false_eq_true, if_false, List.length_cons]
      omega

theorem run_inference_total (weights : WordCounts) (data : List Tweet) :
    (run_inference weights data).right + (run_inference weights data).wrong =
      (data.length : Int) := by
  rw [run_inference_right, run_inference_wrong]
  have := filter_length_add data
    (fun t => t.classification = run_inference_prediction weights t)
  exact_mod_cast this

theorem WF.mem_words_iff {wc : WordCounts} (h : WF wc) (w : DSString) :
    w ∈ wc.words ↔ ∃ i, mapAt wc.indices w = some i := by
  rw [List.mem_iff_getElem?]
  constructor
  · rintro ⟨i, hi⟩
    exact ⟨i, h.word_at w i hi⟩
  · rintro ⟨i, hi⟩
    exact ⟨i, h.at_word w i hi⟩

theorem WF.words_nodup {wc : WordCounts} (h : WF wc) : wc.words.Nodup := by
  rw [List.nodup_iff_getElem?_ne_getElem?]
  intro i j hij hj heq
  have hj2 : wc.words[j]? = some wc.words[j] := List.getElem?_eq_getElem hj
  have e1 := h.word_at _ i (heq.trans hj2)
  have e2 := h.word_at _ j hj2
  rw [e1] at e2
  have := Option.some_inj.1 e2
  omega

theorem AddWord_words (wc : WordCounts) (h : WF wc) (w : DSString) (b : Bool) :
    (AddWord wc w b).words = if w ∈ wc.words then wc.words else wc.words ++ [w] := by
  cases hidx : mapAt wc.indices w with
  | some i =>
    rw [AddWord_present wc w b i hidx, if_pos ((h.mem_words_iff w).2 ⟨i, hidx⟩)]
  | none =>
    have hn : w ∉ wc.words := by
      intro hm
      obtain ⟨i, hi⟩ := (h.mem_words_iff w).1 hm
      rw [hidx] at hi
      cases hi
    rw [AddWord_absent wc w b hidx, if_neg hn]

theorem mem_build_words (calls : List (DSString × Bool)) (w : DSString) :
    w ∈ (build calls).words ↔ w ∈ calls.map Prod.fst := by
  induction calls using List.reverseRecOn with
  | nil => simp [build, WordCounts.empty]
  | append_singleton cs c ih =>
    rw [build_append_singleton, AddWord_words _ (WF_build cs)]
    by_cases hc : c.1 ∈ (build cs).words
    · rw [if_pos hc, ih]
      simp only [List.map_append, List.map_cons, List.map_nil, List.mem_append,
        List.mem_singleton]
      constructor
      · exact Or.inl
      · rintro (h | h)
        · exact h
        · subst h
          exact ih.1 hc
    · rw [if_neg hc]
      simp only [List.map_append, List.map_cons, List.map_nil, List.mem_append,
        List.mem_singleton, ih]

theorem build_words_order (calls : List (DSString × Bool)) (i j : Nat) (wi wj : DSString)
    (hij : i < j) (hi : (build calls).words[i]? = some wi)
    (hj : (build calls).words[j]? = some wj) :
    ∃ pre post, calls.map Prod.fst = pre ++ wj :: post ∧ wj ∉ pre ∧ wi ∈ pre := by
  induction calls using List.reverseRecOn generalizing i j wi wj with
  | nil => simp [build, WordCounts.empty] at hi
  | append_singleton cs c ih =>
    rw [build_append_singleton, AddWord_words _ (WF_build cs)] at hi hj
    rw [List.map_append]
    by_cases hc : c.1 ∈ (build cs).words
    · rw [if_pos hc] at hi hj
      obtain ⟨pre, post, e, h1, h2⟩ := ih i j wi wj hij hi hj
      exact ⟨pre, post ++ [c.1], by simp [e], h1, h2⟩
    · rw [if_neg hc] at hi hj
      have hjlen := (List.getElem?_eq_some.1 hj).1
      simp only [List.length_append, List.length_singleton] at hjlen
      have hilt : i < (build cs).words.length := by omega
      rw [List.getElem?_append_left hilt] at hi
      have mi : wi ∈ cs.map Prod.fst :=
        (mem_build_words cs wi).1 (List.mem_iff_getElem?.2 ⟨i, hi⟩)
      by_cases hjlt : j < (build cs).words.length
      · rw [List.getElem?_append_left hjlt] at hj
        obtain ⟨pre, post, e, h1, h2⟩ := ih i j wi wj hij hi hj
        exact ⟨pre, post ++ [c.1], by simp [e], h1, h2⟩
      · have hje : j = (build cs).words.length := by omega
        subst hje
        simp only [List.getElem?_concat_length, Option.some.injEq] at hj
        subst hj
        have hn : c.1 ∉ cs.map Prod.fst := fun hm => hc ((mem_build_words cs c.1).2 hm)
        exact ⟨cs.map Prod.fst, [], by simp, hn, mi⟩

/-- C14: after any sequence of `AddWord` calls on a fresh `WordCounts`, the
stored words have no duplicates and are exactly the words of the calls, `Size`
is the number of distinct words among the calls, a word stored earlier occurs
in the calls before the first occurrence of a word stored later, and the index map sends each stored word to its own
position. -/
theorem C14_distinct_words_in_order (calls : List (DSString × Bool)) :
    (build calls).words.Nodup ∧
      (∀ w, w ∈ (build calls).words ↔ w ∈ calls.map Prod.fst) ∧
      Size (build calls) = (calls.map Prod.fst).dedup.length ∧
      (∀ (i j : Nat) (wi wj : DSString), i < j → (build calls).words[i]? = some wi →
        (build calls).words[j]? = some wj →
        ∃ pre post, calls.map Prod.fst = pre ++ wj :: post ∧ wj ∉ pre ∧ wi ∈ pre) ∧
      ∀ (i : Nat) (w : DSString), (build calls).words[i]? = some w →
        mapAt (build calls).indices w = some i := by
  have hwf := WF_build calls
  refine ⟨hwf.words_nodup, mem_build_words calls, ?_,
    fun i j wi wj => build_words_order calls i j wi wj, fun i w => hwf.word_at w i⟩
  have hp : (build calls).words.Perm (calls.map Prod.fst).dedup :=
    (List.perm_ext_iff_of_nodup hwf.words_nodup (List.nodup_dedup _)).2
      (fun a => by rw [mem_build_words, List.mem_dedup])
  exact hp.length_eq

/-! ## Cleaning a cleaned word again -/

theorem toLower_char_of_not_upper (c : Char) (h : c.isUpper = false) : Char.toLower c = c := by
  unfold Char.toLower
  by_cases hr : c.toNat ≥ 65 ∧ c.toNat ≤ 90
  · exfalso
    simp only [Char.isUpper, Bool.and_eq_false_imp, decide_eq_true_eq,
      decide_eq_false_iff_not] at h
    exact h hr.1 hr.2
  · simp only [hr, if_false]

theorem toLower_of_not_upper (w : DSString) (h : ∀ c ∈ w, c.isUpper = false) :
    toLower w = w := by
  induction w with
  | nil => rfl
  | cons c w ih =>
    simp only [toLower, List.map_cons] at ih ⊢
    rw [toLower_char_of_not_upper c (h c (List.mem_cons_self _ _)),
      ih (fun x hx => h x (List.mem_cons_of_mem _ hx))]

theorem isASCII_of_sublist (t w : DSString) (hs : t.Sublist w) (h : isASCII w = true) :
    isASCII t = true := by
  rw [isASCII_iff] at h ⊢
  exact fun c hc => h c (hs.subset hc)

theorem filter_eq_self (w pat : DSString) (h : ¬ pat <:+: w) : filter w pat = w := by
  unfold filter
  induction w with
  | nil => rfl
  | cons c w ih =>
    have h1 : startsWith pat (c :: w) = false := by
      cases hs : startsWith pat (c :: w) with
      | false => rfl
      | true => exact absurd ((startsWith_iff _ _).1 hs).isInfix h
    have h2 : ¬ pat <:+: w := fun hw => h (List.infix_cons hw)
    simp only [filterAux, h1, Bool.false_eq_true, if_false, ih h2]

theorem foldl_filter_eq_self (l : List DSString) (w : DSString)
    (h : ∀ pat ∈ l, ¬ pat <:+: w) : l.foldl filter w = w := by
  induction l with
  | nil => rfl
  | cons p l ih =>
    rw [List.foldl_cons, filter_eq_self w p (h p (List.mem_cons_self _ _))]
    exact ih (fun pat hp => h pat (List.mem_cons_of_mem _ hp))

theorem filter_length_lt (w pat : DSString) (hne : pat ≠ []) (h : pat <:+: w) :
    (filter w pat).length < w.length := by
  unfold filter
  induction w with
  | nil =>
    exact absurd (List.infix_nil.1 h) hne
  | cons c w ih =>
    simp only [filterAux]
    split
    · have := (filterAux_sublist pat w (pat.length - 1)).length_le
      simp only [List.length_cons]
      omega
    · rename_i hs
      have hpre : ¬ pat <+: c :: w := fun hp => hs ((startsWith_iff _ _).2 hp)
      have hw : pat <:+: w := by
        rcases List.infix_cons_iff.1 h with h1 | h1
        · exact absurd h1 hpre
        · exact h1
      have := ih hw
      simp only [List.length_cons]
      omega

theorem foldl_filter_length_lt (l : List DSString) (w : DSString)
    (hne : ∀ pat ∈ l, pat ≠ []) (h : ∃ pat ∈ l, pat <:+: w) :
    (l.foldl filter w).length < w.length := by
  induction l with
  | nil =>
    obtain ⟨pat, hp, _⟩ := h
    simp at hp
  | cons p l ih =>
    rw [List.foldl_cons]
    by_cases hp : p <:+: w
    · have h1 := filter_length_lt w p (hne p (List.mem_cons_self _ _)) hp
      have h2 := (foldl_filter_sublist l (filter w p)).length_le
      omega
    · rw [filter_eq_self w p hp]
      apply ih (fun pat hm => hne pat (List.mem_cons_of_mem _ hm))
      obtain ⟨pat, hm, hin⟩ := h
      rcases List.mem_cons.1 hm with e | hm'
      · subst e
        exact absurd hin hp
      · exact ⟨pat, hm', hin⟩

theorem filterStrings_ne_nil : ∀ pat ∈ filterStrings, pat ≠ [] := by decide

/-- C15, counterexample: `&l!t;ab` is accepted and cleaned to `&lt;ab`, and
cleaning that again leaves `ab`; `ht!tp://ab` is accepted and cleaned to
`http://ab`, and cleaning that again rejects it. -/
theorem C15_cleaning_again_differs :
    filter_tweet "&l!t;ab".toList = (true, "&lt;ab".toList) ∧
      filter_tweet "&lt;ab".toList = (true, "ab".toList) ∧
      filter_tweet "ht!tp://ab".toList = (true, "http://ab".toList) ∧
      (filter_tweet "http://ab".toList).1 = false := by
  decide

/-- C15, amended: for every raw word that `filter_tweet` accepts with cleaned
result `t`, applying `filter_tweet` to `t` again accepts and leaves exactly `t`
if and only if `t` contains neither "http://" nor "https://" nor any of the
filter strings. -/
theorem C15_cleaning_again (word : DSString) (h : (filter_tweet word).1 = true) :
    filter_tweet (filter_tweet word).2 = (true, (filter_tweet word).2) ↔
      (¬ "http://".toList <:+: (filter_tweet word).2 ∧
        ¬ "https://".toList <:+: (filter_tweet word).2 ∧
        ∀ pat ∈ filterStrings, ¬ pat <:+: (filter_tweet word).2) := by
  obtain ⟨_, _, _, hascii, hw, hlen⟩ := filter_tweet_accepts word h
  have hsub : ((filter_tweet word).2).Sublist (toLower word) := by
    rw [hw]
    exact foldl_filter_sublist _ _
  have hlow : toLower (filter_tweet word).2 = (filter_tweet word).2 :=
    toLower_of_not_upper _ (fun c hc => toLower_not_upper word c (hsub.subset hc))
  have hlen2 : 2 ≤ ((filter_tweet word).2).length := by
    rw [hw]
    exact hlen
  generalize (filter_tweet word).2 = t at hsub hlow hlen2
  constructor
  · intro ht
    have hacc : (filter_tweet t).1 = true := by rw [ht]
    obtain ⟨_, k2, k3, _, kw, _⟩ := filter_tweet_accepts t hacc
    rw [hlow] at k2 k3 kw
    refine ⟨fun hin => ?_, fun hin => ?_, fun pat hp hin => ?_⟩
    · rw [(includes_iff _ _).2 hin] at k2
      cases k2
    · rw [(includes_iff _ _).2 hin] at k3
      cases k3
    · have hlt := foldl_filter_length_lt filterStrings t filterStrings_ne_nil ⟨pat, hp, hin⟩
      rw [← kw, ht] at hlt
      exact lt_irrefl _ hlt
  · rintro ⟨n2, n3, nf⟩
    have hne : toLower t ≠ [] := by
      rw [hlow]
      intro e
      rw [e] at hlen2
      simp at hlen2
    have i2 : includes (toLower t) "http://".toList = false := by
      rw [hlow]
      cases hi : includes t "http://".toList with
      | false => rfl
      | true => exact absurd ((includes_iff _ _).1 hi) n2
    have i3 : includes (toLower t) "https://".toList = false := by
      rw [hlow]
      cases hi : includes t "https://".toList with
      | false => rfl
      | true => exact absurd ((includes_iff _ _).1 hi) n3
    have i4 : isASCII (toLower t) = true := by
      rw [hlow]
      exact isASCII_of_sublist t _ hsub hascii
    rw [filter_tweet_of_checks t hne i2 i3 i4, hlow, foldl_filter_eq_self _ _ nf]
    simp [hlen2]

/-- Witness of C15: "Great!!" is cleaned to "great", and cleaning "great" again
leaves it as it is. -/
theorem C15_cleaning_again_witness :
    (filter_tweet "Great!!".toList).2 = "great".toList ∧
      filter_tweet (filter_tweet "Great!!".toList).2 =
        (true, (filter_tweet "Great!!".toList).2) :=
  ⟨by decide, (C15_cleaning_again "Great!!".toList (by decide)).2 (by decide)⟩

/-! ## The shape of the tokens -/

theorem check_biagram_no_merge (c next : DSString) (h1 : c ≠ "not".toList)
    (h2 : c ≠ "very".toList) : check_biagram c next = (c, next) := by
  simp only [check_biagram, if_neg h1, if_neg h2]

theorem emitFrom_token (rest : List DSString) (cur tok : DSString)
    (h : some tok ∈ emitFrom cur rest) :
    (∃ w ∈ cur :: rest, (filter_tweet w).1 = true ∧ tok = (filter_tweet w).2) ∨
      ∃ nxt ∈ rest, tok = "not".toList ++ " ".toList ++ nxt ∨
        tok = "very".toList ++ " ".toList ++ nxt := by
  induction rest generalizing cur with
  | nil =>
    simp only [emitFrom, List.mem_singleton] at h
    by_cases ha : (filter_tweet cur).1 = true
    · simp only [ha, if_true, Option.some.injEq] at h
      exact Or.inl ⟨cur, List.mem_singleton_self _, ha, h⟩
    · simp only [ha, Bool.false_eq_true, if_false] at h
      cases h
  | cons next rest ih =>
    simp only [emitFrom] at h
    by_cases ha : (filter_tweet cur).1 = true
    · simp only [ha, if_true, List.mem_cons, Option.some.injEq] at h
      by_cases hc : (filter_tweet cur).2 = "not".toList ∨ (filter_tweet cur).2 = "very".toList
      · rw [check_biagram_merge _ next hc] at h
        rcases h with h | h
        · right
          refine ⟨next, List.mem_cons_self _ _, ?_⟩
          rcases hc with hc | hc
          · left; rw [h, hc]
          · right; rw [h, hc]
        · rcases ih [] h with ⟨w, hw, hacc, e⟩ | ⟨nxt, hn, e⟩
          · rcases List.mem_cons.1 hw with hw | hw
            · subst hw
              rw [filter_tweet_nil] at hacc
              cases hacc
            · exact Or.inl ⟨w, List.mem_cons_of_mem _ (List.mem_cons_of_mem _ hw), hacc, e⟩
          · exact Or.inr ⟨nxt, List.mem_cons_of_mem _ hn, e⟩
      · rw [check_biagram_no_merge _ next (fun e => hc (Or.inl e)) (fun e => hc (Or.inr e))]
          at h
        rcases h with h | h
        · exact Or.inl ⟨cur, List.mem_cons_self _ _, ha, h⟩
        · rcases ih next h with ⟨w, hw, hacc, e⟩ | ⟨nxt, hn, e⟩
          · exact Or.inl ⟨w, List.mem_cons_of_mem _ hw, hacc, e⟩
          · exact Or.inr ⟨nxt, List.mem_cons_of_mem _ hn, e⟩
    · simp only [ha, Bool.false_eq_true, if_false, List.mem_cons] at h
      rcases h with h | h
      · cases h
      · rcases ih next h with ⟨w, hw, hacc, e⟩ | ⟨nxt, hn, e⟩
        · exact Or.inl ⟨w, List.mem_cons_of_mem _ hw, hacc, e⟩
        · exact Or.inr ⟨nxt, List.mem_cons_of_mem _ hn, e⟩

theorem mem_tokens (parts : List DSString) (tok : DSString) (h : tok ∈ tokens parts) :
    (∃ w ∈ parts, (filter_tweet w).1 = true ∧ tok = (filter_tweet w).2) ∨
      ∃ nxt ∈ parts, tok = "not".toList ++ " ".toList ++ nxt ∨
        tok = "very".toList ++ " ".toList ++ nxt := by
  simp only [tokens, List.mem_filterMap, id_eq, exists_eq_right] at h
  cases parts with
  | nil => simp [emitted] at h
  | cons cur rest =>
    rcases emitFrom_token rest cur tok h with h1 | ⟨nxt, hn, e⟩
    · exact Or.inl h1
    · exact Or.inr ⟨nxt, List.mem_cons_of_mem _ hn, e⟩

/-- C16, counterexample: the words `["not", "BAD"]` give the one token
`not BAD`, which holds the upper-case letter `B`; the word `ht!tp://ab` gives
the token `http://ab`, which contains "http://". -/
theorem C16_token_breaks_invariant :
    tokens ["not".toList, "BAD".toList] = ["not BAD".toList] ∧
      'B' ∈ "not BAD".toList ∧ 'B'.isUpper = true ∧
      tokens ["ht!tp://ab".toList] = ["http://ab".toList] ∧
      "http://".toList <:+: "http://ab".toList := by
  decide

/-- C16, amended: every token the word loop hands to `AddWord` has length at
least 2, and it is either the cleaned form of an accepted split word, which is
lower-case and ASCII-only (and the lower-cased split word contained neither
"http://" nor "https://"), or "not " or "very " followed by a raw split word,
which has not been cleaned. -/
theorem C16_token_shape (parts : List DSString) (tok : DSString) (h : tok ∈ tokens parts) :
    2 ≤ tok.length ∧
      ((∃ w ∈ parts, (filter_tweet w).1 = true ∧ tok = (filter_tweet w).2 ∧
          (∀ c ∈ tok, c.isUpper = false ∧ c.toNat < 128) ∧
          ¬ "http://".toList <:+: toLower w ∧ ¬ "https://".toList <:+: toLower w) ∨
        ∃ nxt ∈ parts, tok = "not".toList ++ " ".toList ++ nxt ∨
          tok = "very".toList ++ " ".toList ++ nxt) := by
  rcases mem_tokens parts tok h with ⟨w, hw, hacc, e⟩ | ⟨nxt, hn, e⟩
  · obtain ⟨_, k2, k3, k4, kw, klen⟩ := filter_tweet_accepts w hacc
    have hsub : tok.Sublist (toLower w) := by
      rw [e, kw]
      exact foldl_filter_sublist _ _
    refine ⟨by rw [e, kw]; exact klen, Or.inl ⟨w, hw, hacc, e, ?_, ?_, ?_⟩⟩
    · intro c hc
      exact ⟨toLower_not_upper w c (hsub.subset hc),
        (isASCII_iff _).1 k4 c (hsub.subset hc)⟩
    · intro hin
      rw [(includes_iff _ _).2 hin] at k2
      cases k2
    · intro hin
      rw [(includes_iff _ _).2 hin] at k3
      cases k3
  · refine ⟨?_, Or.inr ⟨nxt, hn, e⟩⟩
    rcases e with e | e <;> rw [e] <;> simp [List.length_append]

/-- Witness of C16: the token "great" of the words `["Great!!", "a"]`. -/
theorem C16_token_shape_witness :
    "great".toList ∈ tokens ["Great!!".toList, "a".toList] ∧ 2 ≤ "great".toList.length :=
  ⟨by decide, (C16_token_shape ["Great!!".toList, "a".toList] "great".toList (by decide)).1⟩

/-! ## The last word -/

theorem emitFrom_length (rest : List DSString) (cur : DSString) :
    (emitFrom cur rest).length = rest.length + 1 := by
  induction rest generalizing cur with
  | nil => simp [emitFrom]
  | cons next rest ih =>
    simp only [emitFrom]
    split <;> simp [ih]

theorem emitted_length (parts : List DSString) : (emitted parts).length = parts.length := by
  cases parts with
  | nil => rfl
  | cons cur rest => exact emitFrom_length rest cur

theorem emitFrom_last (rest : List DSString) (cur w : DSString)
    (hw : (cur :: rest)[rest.length]? = some w)
    (hs : (slotsFrom cur rest)[rest.length]? = some w)
    (hacc : (filter_tweet w).1 = true) :
    (emitFrom cur rest)[rest.length]? = some (some (filter_tweet w).2) := by
  induction rest generalizing cur with
  | nil =>
    simp only [List.length_nil, List.getElem?_cons_zero, Option.some.injEq] at hw
    subst hw
    simp [emitFrom, hacc]
  | cons next rest ih =>
    simp only [List.length_cons, List.getElem?_cons_succ] at hw
    simp only [slotsFrom, List.length_cons, List.getElem?_cons_succ] at hs
    simp only [emitFrom, List.length_cons]
    by_cases ha : (filter_tweet cur).1 = true
    · simp only [ha, if_true, List.getElem?_cons_succ] at hs ⊢
      apply ih _ _ hs
      cases rest with
      | nil =>
        rw [List.length_nil, slotsFrom_head] at hs
        simpa using hs
      | cons x xs => simpa using hw
    · simp only [ha, Bool.false_eq_true, if_false, List.getElem?_cons_succ] at hs ⊢
      exact ih next hw hs

/-- C17, counterexample: in `["not", "not"]` the last word is accepted and cleans
to "not", and the round at the last position hands on no token: the round before
merged the word into "not not" and left the slot empty. -/
theorem C17_consumed_last_word :
    (filter_tweet "not".toList).1 = true ∧
      (filter_tweet "not".toList).2 = "not".toList ∧
      emitted ["not".toList, "not".toList] = [some "not not".toList, none] := by
  decide

/-- C17, amended: for every non-empty sequence of split words whose last word is
still in its slot when the loop reaches it (the round before has not merged it
away), is accepted and cleans to exactly "not" or "very", the token handed on at
the last position is just the cleaned word, "not" or "very": no merge takes
place, and the loop has exactly one round per word. -/
theorem C17_trailing_word (parts : List DSString) (w : DSString) (hne : parts ≠ [])
    (hw : parts[parts.length - 1]? = some w)
    (hs : (slots parts)[parts.length - 1]? = some w)
    (hacc : (filter_tweet w).1 = true)
    (hc : (filter_tweet w).2 = "not".toList ∨ (filter_tweet w).2 = "very".toList) :
    (emitted parts).length = parts.length ∧
      (emitted parts)[parts.length - 1]? = some (some (filter_tweet w).2) ∧
      ((emitted parts)[parts.length - 1]? = some (some "not".toList) ∨
        (emitted parts)[parts.length - 1]? = some (some "very".toList)) := by
  cases parts with
  | nil => exact absurd rfl hne
  | cons cur rest =>
    simp only [List.length_cons, Nat.add_sub_cancel] at hw hs ⊢
    have h := emitFrom_last rest cur w hw hs hacc
    refine ⟨by simpa using emitted_length (cur :: rest), h, ?_⟩
    rcases hc with hc | hc
    · left; rw [← hc]; exact h
    · right; rw [← hc]; exact h

/-- Witness of C17: `["so", "not"]` ends in the token "not". -/
theorem C17_trailing_word_witness :
    (emitted ["so".toList, "not".toList])[2 - 1]? = some (some "not".toList) :=
  (C17_trailing_word ["so".toList, "not".toList] "not".toList (by decide) (by decide)
    (by decide) (by decide) (Or.inl (by decide))).2.1

/-! ## Training and the accuracy on the training data -/

theorem filter_length_le_of_imp (data : List Tweet) (p q : Tweet → Bool)
    (h : ∀ t ∈ data, p t = true → q t = true) :
    (data.filter p).length ≤ (data.filter q).length := by
  induction data with
  | nil => simp
  | cons t data ih =>
    have ih2 := ih (fun x hx => h x (List.mem_cons_of_mem _ hx))
    have ht := h t (List.mem_cons_self _ _)
    simp only [List.filter_cons]
    cases hp : p t
    · cases hq : q t
      · simpa using ih2
      · simp only [Bool.false_eq_true, if_false, if_true, List.length_cons]
        omega
    · rw [ht hp]
      simpa using ih2

/-- After training on at most 2147483647 observations, a word counted at least
as often positive as negative has a finite score between 0 and 1. -/
theorem GetScore_trained_nonneg (data : List Tweet) (hobs : observations data ≤ 2147483647)
    (w : DSString) (h : negOf (gen_dict data) w ≤ posOf (gen_dict data) w) :
    ∃ q, GetScore (run_training data) w = Flt.fin q ∧ 0 ≤ q ∧ q ≤ 1 := by
  have hwf := WF_gen_dict data
  cases hidx : mapAt (gen_dict data).indices w with
  | none =>
    refine ⟨0, ?_, le_refl 0, by norm_num⟩
    simp [run_training, GetScore, GenScores_indices, hidx]
  | some i =>
    have hg := (GetScore_GenScores (gen_dict data) hwf w i hidx).2
    simp only [posOf, negOf, hidx] at h
    obtain ⟨c1, c2, c3, c4⟩ := Counted_gen_dict data hobs i (hwf.index_lt hidx)
    obtain ⟨q, hq, _, q2, q3⟩ := GenScore_range (gen_dict data) i c1 c2 c3 (by omega)
    exact ⟨q, by rw [run_training, hg, hq], q3 h, q2⟩

/-- Adding scores between 0 and 1 to a sum between 0 and 16777216 (2 ^ 24)
leaves a finite sum in that range: the float sum stops growing at 16777216. -/
theorem foldl_add_bounded (weights : WordCounts) (ts : List DSString)
    (h : ∀ t ∈ ts, ∃ q, GetScore weights t = Flt.fin q ∧ 0 ≤ q ∧ q ≤ 1)
    (a : ℚ) (ha0 : 0 ≤ a) (ha : a ≤ 16777216) :
    ∃ b, ts.foldl (fun s t => Flt.add s (GetScore weights t)) (Flt.fin a) = Flt.fin b ∧
      0 ≤ b ∧ b ≤ 16777216 := by
  induction ts generalizing a with
  | nil => exact ⟨a, rfl, ha0, ha⟩
  | cons t ts ih =>
    obtain ⟨q, hq, q0, q1⟩ := h t (List.mem_cons_self _ _)
    obtain ⟨c, hc, c0, c1⟩ := round_le_of_le (a + q) 16777217 16777216 (by linarith)
      (by linarith) round_16777217
    rw [List.foldl_cons, hq]
    have e : Flt.add (Flt.fin a) (Flt.fin q) = Flt.fin c := hc
    rw [e]
    exact ih (fun x hx => h x (List.mem_cons_of_mem _ hx)) c c0 c1

/-- A record whose score is a finite float that is not negative is predicted 4. -/
theorem prediction_of_score_nonneg (weights : WordCounts) (tweet : Tweet) (a : ℚ)
    (h : run_inference_score weights tweet = Flt.fin a) (ha : 0 ≤ a) :
    run_inference_prediction weights tweet = 4 := by
  rw [run_inference_prediction_eq, h]
  have hlt : Flt.lt biasThreshold
      (Flt.div (Flt.fin a) (Flt.ofInt ((split tweet.text).length + 1))) = true := by
    rcases ofInt_pos_cases ((split tweet.text).length + 1) (by omega) with ⟨r, hr, hr1⟩ | hinf
    · rw [hr, div_fin_of_ne_zero a r (by linarith)]
      rcases round_nonneg_cases (a / r) (div_nonneg ha (by linarith)) with ⟨s, hs, hs0⟩ | hinf
      · rw [hs]
        exact lt_biasThreshold_of_nonneg s hs0
      · rw [hinf]
        exact lt_biasThreshold_inf
    · rw [hinf]
      exact lt_biasThreshold_of_nonneg 0 (le_refl 0)
  rw [hlt]
  rfl

/-- The float quotient grows with the numerator. -/
theorem div_ofInt_mono (r1 r2 n : Int) (h0 : 0 ≤ r1) (h12 : r1 ≤ r2) (h2n : r2 ≤ n)
    (hn1 : 1 ≤ n) (hn : n ≤ 2147483647) :
    Flt.le (Flt.div (Flt.ofInt r1) (Flt.ofInt n)) (Flt.div (Flt.ofInt r2) (Flt.ofInt n)) =
      true := by
  obtain ⟨r, hr, hr1, _⟩ := ofInt_of_pos n hn1 (by omega)
  have hrpos : 0 < r := by linarith
  have hb : ∃ b, Flt.ofInt r2 = Flt.fin b ∧ 0 ≤ b := by
    rcases eq_or_lt_of_le (le_trans h0 h12) with hz | hp
    · exact ⟨0, by rw [← hz, ofInt_zero], le_refl 0⟩
    · obtain ⟨b, hb, hb1, _⟩ := ofInt_of_pos r2 (by omega) (by omega)
      exact ⟨b, hb, by linarith⟩
  obtain ⟨b, hb, hb0⟩ := hb
  have hb2 : Flt.round ((r2 : Int) : ℚ) = Flt.fin b := hb
  obtain ⟨a, ha, ha0, hab⟩ := round_le_of_le ((r1 : Int) : ℚ) ((r2 : Int) : ℚ) b
    (by exact_mod_cast h0) (by exact_mod_cast h12) hb2
  have ha2 : Flt.ofInt r1 = Flt.fin a := ha
  rw [hr, hb, ha2, div_fin_of_ne_zero a r (ne_of_gt hrpos),
    div_fin_of_ne_zero b r (ne_of_gt hrpos)]
  exact round_mono_nonneg (a / r) (b / r) (div_nonneg ha0 (le_of_lt hrpos))
    (div_le_div_of_nonneg_right hab (le_of_lt hrpos))

/-- C18, counterexample: on the three records of `adverseData` the lexicon
trained on them gets no record right (accuracy 0), and the empty lexicon gets
one of the three right (accuracy 1/3, as a float 11184811/33554432). The word
"xx" of the record labelled 4 was counted once as positive and twice as
negative. -/
theorem C18_training_lowers_accuracy :
    adverseData ≠ [] ∧
      (run_inference (run_training adverseData) adverseData).accuracy = Flt.fin 0 ∧
      (run_inference WordCounts.empty adverseData).accuracy = Flt.fin (11184811 / 33554432) ∧
      Flt.le (run_inference WordCounts.empty adverseData).accuracy
        (run_inference (run_training adverseData) adverseData).accuracy = false ∧
      posOf (gen_dict adverseData) "xx".toList = 1 ∧
      negOf (gen_dict adverseData) "xx".toList = 2 := by
  decide!

/-- C18, amended: for every non-empty list of records with at most 2147483647
observations (authors and tokens), if every word of every record labelled 4, its
author and its tokens, has been counted by `gen_dict` on these records at least
as often positive as negative, then the lexicon `run_training` builds from the
records predicts 4 for every record labelled 4, gets at least as many records
right as the empty lexicon, and the accuracy of `run_inference` with it is
greater than or equal to the accuracy with the empty lexicon. -/
theorem C18_roundtrip_accuracy (data : List Tweet) (hne : data ≠ [])
    (hobs : observations data ≤ 2147483647)
    (hpos : ∀ t ∈ data, t.classification = 4 → ∀ w ∈ t.user :: tokens (split t.text),
      negOf (gen_dict data) w ≤ posOf (gen_dict data) w) :
    (∀ t ∈ data, t.classification = 4 →
        run_inference_prediction (run_training data) t = 4) ∧
      (run_inference WordCounts.empty data).right ≤
        (run_inference (run_training data) data).right ∧
      Flt.le (run_inference WordCounts.empty data).accuracy
        (run_inference (run_training data) data).accuracy = true := by
  have hpred : ∀ t ∈ data, t.classification = 4 →
      run_inference_prediction (run_training data) t = 4 := by
    intro t ht h4
    have hw := hpos t ht h4
    obtain ⟨u, hu, u0, u1⟩ := GetScore_trained_nonneg data hobs t.user
      (hw t.user (List.mem_cons_self _ _))
    obtain ⟨c, hc, c0, c1⟩ := round_le_of_le (0 + u) 16777217 16777216 (by linarith)
      (by linarith) round_16777217
    have e : Flt.add (Flt.fin 0) (Flt.fin u) = Flt.fin c := hc
    obtain ⟨b, hb, b0, _⟩ := foldl_add_bounded (run_training data) (tokens (split t.text))
      (fun x hx => GetScore_trained_nonneg data hobs x (hw x (List.mem_cons_of_mem _ hx)))
      c c0 c1
    exact prediction_of_score_nonneg (run_training data) t b
      (by rw [run_inference_score_eq, hu, e, hb]) b0
  have hright : (run_inference WordCounts.empty data).right ≤
      (run_inference (run_training data) data).right := by
    rw [run_inference_right, run_inference_right]
    have := filter_length_le_of_imp data
      (fun t => decide (t.classification = run_inference_prediction WordCounts.empty t))
      (fun t => decide (t.classification = run_inference_prediction (run_training data) t))
      (by
        intro t ht h
        simp only [prediction_empty, decide_eq_true_eq] at h
        simp only [decide_eq_true_eq]
        rw [hpred t ht h, h])
    exact_mod_cast this
  refine ⟨hpred, hright, ?_⟩
  have hlen : 0 < data.length := List.length_pos.2 hne
  have hle : data.length ≤ observations data := by
    unfold observations
    omega
  have t1 := run_inference_total WordCounts.empty data
  have t2 := run_inference_total (run_training data) data
  have w2 : 0 ≤ (run_inference (run_training data) data).wrong := by
    rw [run_inference_wrong]
    exact Int.natCast_nonneg _
  have r1 : 0 ≤ (run_inference WordCounts.empty data).right := by
    rw [run_inference_right]
    exact Int.natCast_nonneg _
  rw [run_inference_accuracy, run_inference_accuracy, t1, t2]
  exact div_ofInt_mono _ _ _ r1 hright (by omega) (by omega) (by omega)

/-- Witness of C18: on the four records of `helpfulData` the condition holds;
the trained lexicon gets three of them right and the empty lexicon one. -/
theorem C18_roundtrip_accuracy_witness :
    Flt.le (run_inference WordCounts.empty helpfulData).accuracy
        (run_inference (run_training helpfulData) helpfulData).accuracy = true ∧
      (run_inference WordCounts.empty helpfulData).accuracy = Flt.fin (1 / 4) ∧
      (run_inference (run_training helpfulData) helpfulData).accuracy = Flt.fin (3 / 4) :=
  ⟨(C18_roundtrip_accuracy helpfulData (by decide) (by decide) (by decide)).2.2,
    by decide!, by decide!⟩

/-! ## Before `GenScores` -/

theorem AddWord_scores_zero (wc : WordCounts) (w : DSString) (b : Bool)
    (h : ∀ q ∈ wc.scores, q = Flt.fin 0) : ∀ q ∈ (AddWord wc w b).scores, q = Flt.fin 0 := by
  cases hidx : mapAt wc.indices w with
  | some i =>
    rw [AddWord_present wc w b i hidx]
    exact h
  | none =>
    rw [AddWord_absent wc w b hidx]
    intro q hq
    simp only [List.mem_append, List.mem_singleton] at hq
    rcases hq with hq | hq
    · exact h q hq
    · exact hq

theorem foldl_AddWord_scores_zero (calls : List (DSString × Bool)) (wc : WordCounts)
    (h : ∀ q ∈ wc.scores, q = Flt.fin 0) :
    ∀ q ∈ (calls.foldl (fun wc c => AddWord wc c.1 c.2) wc).scores, q = Flt.fin 0 := by
  induction calls generalizing wc with
  | nil => exact h
  | cons c calls ih => exact ih _ (AddWord_scores_zero wc c.1 c.2 h)

theorem GetScore_of_scores_zero (wc : WordCounts) (h : ∀ q ∈ wc.scores, q = Flt.fin 0)
    (w : DSString) : GetScore wc w = Flt.fin 0 := by
  unfold GetScore
  cases mapAt wc.indices w with
  | none => rfl
  | some i =>
    simp only [List.getD_eq_getElem?_getD]
    cases hq : wc.scores[i]? with
    | none => rfl
    | some q => exact h q (List.mem_iff_getElem?.2 ⟨i, hq⟩)

/-- C19: in every lexicon built by `AddWord` calls alone, every stored score is
0, `GetScore` returns 0 for every word, and the vectors `words`, `pos`, `neg`
and `scores` have one and the same length. -/
theorem C19_scores_zero_before_GenScores (calls : List (DSString × Bool)) :
    (∀ q ∈ (build calls).scores, q = Flt.fin 0) ∧
      (∀ w, GetScore (build calls) w = Flt.fin 0) ∧
      (build calls).pos.length = (build calls).words.length ∧
      (build calls).neg.length = (build calls).words.length ∧
      (build calls).scores.length = (build calls).words.length := by
  have hz : ∀ q ∈ (build calls).scores, q = Flt.fin 0 :=
    foldl_AddWord_scores_zero calls WordCounts.empty (by simp [WordCounts.empty])
  have hwf := WF_build calls
  exact ⟨hz, GetScore_of_scores_zero _ hz, hwf.pos_len, hwf.neg_len, hwf.scores_len⟩

/-! ## The observations `gen_dict` makes -/

theorem observations_replicate_echoTweet (n : Nat) :
    observations (List.replicate n echoTweet) = 2 * n := by
  have htok : (tokens (split echoTweet.text)).length = 1 := by decide
  unfold observations
  simp only [List.map_replicate, List.sum_replicate, List.length_replicate, htok, smul_eq_mul]
  omega

/-- C20, counterexample: 1073741824 records of the author "aa" with the text
"aa" make 2147483648 observations, one of the author and one of a token for each
record, all of the word "aa"; its entry, the only one of the lexicon, then has
the counts (-2147483648, 0), so the sum over all entries of positive count plus
negative count is -2147483648, not the number of records plus the number of
tokens. -/
theorem C20_total_wraps :
    observations (List.replicate 1073741824 echoTweet) = 2147483648 ∧
      (List.zipWith (· + ·) (gen_dict (List.replicate 1073741824 echoTweet)).pos
        (gen_dict (List.replicate 1073741824 echoTweet)).neg).sum = -2147483648 := by
  constructor
  · rw [observations_replicate_echoTweet]
  · have e : gen_dict (List.replicate 1073741824 echoTweet) =
        { pos := [-2147483648], neg := [0], words := ["aa".toList],
          indices := [("aa".toList, 0)], scores := [Flt.fin 0] } := by
      rw [gen_dict_eq_build,
        flatMap_replicate_pair 1073741824 echoTweet _ ("aa".toList, true) (by decide)]
      have h := build_replicate "aa".toList 2147483647
      have e2 : 2 * 1073741824 = 2147483647 + 1 := by norm_num
      rw [e2, h]
      decide
    rw [e]
    decide

/-- C20, amended: for every list of records, `gen_dict` makes, record by record,
one `AddWord` call for the author and then one for each token of the text, all
with the flag of that record's label; and while these observations are at most
2147483647, the sum over all entries of the lexicon it returns of positive count
plus negative count is the number of records plus the number of tokens of all
records. -/
theorem C20_total_observations (data : List Tweet) :
    gen_dict data =
        build (data.flatMap fun t =>
          (t.user :: tokens (split t.text)).map fun x => (x, intToBool t.classification)) ∧
      (observations data ≤ 2147483647 →
        (List.zipWith (· + ·) (gen_dict data).pos (gen_dict data).neg).sum =
          (data.length : Int) +
            ((data.map fun t => (tokens (split t.text)).length).sum : Nat)) := by
  refine ⟨gen_dict_eq_build data, ?_⟩
  intro hobs
  have hwf := WF_gen_dict data
  rw [sum_zipWith_add _ _ (hwf.pos_len.trans hwf.neg_len.symm), gen_dict_eq_build,
    build_total _ (by rw [calls_length]; exact hobs), calls_length]
  unfold observations
  push_cast
  rfl

/-- Witness of C20: the three records of `adverseData` make 3 observations of an
author and 3 of a token. -/
theorem C20_total_observations_witness :
    observations adverseData ≤ 2147483647 ∧
      (List.zipWith (· + ·) (gen_dict adverseData).pos (gen_dict adverseData).neg).sum = 6 := by
  have h := (C20_total_observations adverseData).2 (by decide)
  have e : (adverseData.length : Int) +
      ((adverseData.map fun t => (tokens (split t.text)).length).sum : Nat) = 6 := by decide
  rw [e] at h
  exact ⟨by decide, h⟩

end TweetClassifier
